import Mathlib

/-!
The manifest pipeline of `main.go` of uselocalgomodules.

A shallow embedding of `main.go`: the line patterns, the requirement extractor
`findRequires`, the scanner `searchDir` / `findModules`, the planning loop of
`realMain` and the rewriter `findNewContent`, followed by the properties the
specification states about them.

Go strings are modelled as lists of characters (`Str`); slices are lists, and
`append` is `++ [x]`.
-/

namespace UseLocalGoModules

/-- A Go `string`, as the list of its characters. -/
abbrev Str := List Char

/-! ## Library functions used by `main.go` -/

/-- The pieces of `s` between the occurrences of the character `sep`; never empty. -/
def splitSep (sep : Char) : Str → List Str
  | [] => [[]]
  | c :: cs =>
    if c = sep then [] :: splitSep sep cs
    else
      match splitSep sep cs with
      | [] => [[c]]
      | l :: ls => (c :: l) :: ls

/-- The elements of `ls` with the character `sep` between them. -/
def joinSep (sep : Char) : List Str → Str
  | [] => []
  | [l] => l
  | l :: l' :: ls => l ++ sep :: joinSep sep (l' :: ls)

/-- Model of `strings.Split(s, "\n")`. -/
def splitNL (s : Str) : List Str := splitSep '\n' s

/-- Model of `strings.Join(out, "\n")`. -/
def joinNL (out : List Str) : Str := joinSep '\n' out

/-- The class `\s` of Go's `regexp` package: `[\t\n\f\r ]`. -/
def isSpace (c : Char) : Bool :=
  c = '\t' || c = '\n' || c = '\x0c' || c = '\r' || c = ' '

/-- The class `\S`: every character outside `\s`. -/
def isNonSpace (c : Char) : Bool := !isSpace c

/-- The class `[\d\.]`: an ASCII digit or a dot. -/
def isDigitOrDot (c : Char) : Bool :=
  ('0' ≤ c && c ≤ '9') || c = '.'

/-- Removes the literal `pre` from the front of `s`, when `s` starts with it. -/
def stripPrefix : Str → Str → Option Str
  | [], s => some s
  | _ :: _, [] => none
  | p :: ps, c :: cs => if p = c then stripPrefix ps cs else none

/-- The text that a match of `\S+$` accepts: non-empty and free of `\s`. -/
def isToken (s : Str) : Bool := !s.isEmpty && s.all isNonSpace

/-! ## The line patterns (`main.go` lines 24-37)

Every pattern is anchored by `^` and `$`, and is applied to one line at a time.
`FindStringSubmatch` is modelled by an `Option`: `some m1` stands for the slice
`[m0, m1]` of length 2, `none` for `nil`. -/

/-- The pattern `^module\s+(\S+)$`; the result is the capture. -/
def moduleRE (line : Str) : Option Str :=
  match stripPrefix "module".toList line with
  | none => none
  | some rest =>
    let name := rest.dropWhile isSpace
    if !(rest.takeWhile isSpace).isEmpty && isToken name then some name else none

/-- The pattern `^require (\S+) \S+$`; the result is the capture. The greedy `(\S+)` has to
run up to the first `\s`, which has to be the literal blank. -/
def singleRequireRE (line : Str) : Option Str :=
  match stripPrefix "require ".toList line with
  | none => none
  | some rest =>
    let name := rest.takeWhile isNonSpace
    match rest.dropWhile isNonSpace with
    | ' ' :: version => if !name.isEmpty && isToken version then some name else none
    | _ => none

/-- The pattern `^require \($`. -/
def requireStartRE (line : Str) : Bool := line = "require (".toList

/-- The pattern `^\s+(\S+) \S+$`; the result is the capture. -/
def requireRE (line : Str) : Option Str :=
  let rest := line.dropWhile isSpace
  let name := rest.takeWhile isNonSpace
  match rest.dropWhile isNonSpace with
  | ' ' :: version =>
    if !(line.takeWhile isSpace).isEmpty && !name.isEmpty && isToken version then some name
    else none
  | _ => none

/-- The pattern `^\)$`. -/
def requireEndRE (line : Str) : Bool := line = ")".toList

/-- The pattern `^go [\d\.]+$`. -/
def goVersionRE (line : Str) : Bool :=
  match stripPrefix "go ".toList line with
  | none => false
  | some version => !version.isEmpty && version.all isDigitOrDot

/-- The text that `\s*=>\s*\S+$` accepts. -/
def replaceTail (s : Str) : Bool :=
  match stripPrefix "=>".toList (s.dropWhile isSpace) with
  | none => false
  | some rest => isToken (rest.dropWhile isSpace)

/-- The greedy choice of `(\S+)` in `replaceRE`: the longest prefix of `s` of length
between 1 and `k` that `\s*=>\s*\S+$` can follow. -/
def replaceCapture (s : Str) : Nat → Option Str
  | 0 => none
  | k + 1 => if replaceTail (s.drop (k + 1)) then some (s.take (k + 1)) else replaceCapture s k

/-- The pattern `^replace\s+(\S+)\s*=>\s*\S+$`; the result is the capture. `\s+` has to take
the whole run of `\s`, and `(\S+)` is tried from the whole following run of `\S` downwards. -/
def replaceRE (line : Str) : Option Str :=
  match stripPrefix "replace".toList line with
  | none => none
  | some rest =>
    if (rest.takeWhile isSpace).isEmpty then none
    else
      let s := rest.dropWhile isSpace
      replaceCapture s (s.takeWhile isNonSpace).length

/-! ## The rewriter (`main.go` lines 125-163) -/

/-- The struct `replacement`. -/
structure replacement where
  module : Str
  relDir : Str
  deriving DecidableEq, Repr

/-- The line built by `fmt.Sprintf("replace %s => %s", r.module, r.relDir)`. -/
def replLine (r : replacement) : Str :=
  "replace ".toList ++ r.module ++ " => ".toList ++ r.relDir

/-- The first loop of `findNewContent` (lines 136-142): the captures of the lines of the
file that `replaceRE` matches, in file order. -/
def existingRepls (b : Str) : List Str :=
  (splitNL b).foldl
    (fun existingRepls line =>
      match replaceRE line with
      | some repl => existingRepls ++ [repl]
      | none => existingRepls)
    []

/-- Model of `sets.String(strs)` of `goutil/sets` together with the lookup `set[s]`: the
map holds `true` exactly at the elements of `strs`. -/
def setsString (strs : List Str) (s : Str) : Bool := decide (s ∈ strs)

/-- The loop over `repls` inside `findNewContent` (lines 150-158): appends one directive
line per replacement whose module is not in the set. -/
def appendRepls (existingReplSet : Str → Bool) (repls : List replacement) (out : List Str) :
    List Str :=
  repls.foldl
    (fun out r => if existingReplSet r.module then out else out ++ [replLine r])
    out

/-- The second loop of `findNewContent` (lines 145-160): the slice `out`. -/
def newContentLines (b : Str) (repls : List replacement) : List Str :=
  let existingReplSet := setsString (existingRepls b)
  (splitNL b).foldl
    (fun out line =>
      let out := out ++ [line]
      if goVersionRE line then appendRepls existingReplSet repls (out ++ [[]])
      else out)
    []

/-- The function `findNewContent` on the contents `b` that `ioutil.ReadFile` returned. -/
def findNewContent (b : Str) (repls : List replacement) : Str :=
  joinNL (newContentLines b repls)

/-! ## The requirement extractor (`main.go` lines 45-76) -/

/-- One iteration of the loop of `findRequires` (lines 52-74) on the state
`(requires, inRequires)`. -/
def findRequiresStep (st : List Str × Bool) (line : Str) : List Str × Bool :=
  if st.2 then
    if requireEndRE line then (st.1, false)
    else
      match requireRE line with
      | some require => (st.1 ++ [require], st.2)
      | none => st
  else
    if requireStartRE line then (st.1, true)
    else
      match singleRequireRE line with
      | some require => (st.1 ++ [require], st.2)
      | none => st

/-- The function `findRequires` on the contents `b` that `ioutil.ReadFile` returned. -/
def findRequires (b : Str) : List Str :=
  ((splitNL b).foldl findRequiresStep ([], false)).1

/-! ## Paths and the file system -/

/-- One path component in `path.Clean`, on the components kept so far and the number of
leading `..` components that cannot be removed. -/
def cleanStep (rooted : Bool) (st : List Str × Nat) (comp : Str) : List Str × Nat :=
  if comp = [] ∨ comp = ['.'] then st
  else if comp = ['.', '.'] then
    if st.2 < st.1.length then (st.1.dropLast, st.2)
    else if rooted then st
    else (st.1 ++ [comp], st.1.length + 1)
  else (st.1 ++ [comp], st.2)

/-- Model of `path.Clean`: drops empty and `.` components, resolves `..` lexically. -/
def pathClean (p : Str) : Str :=
  if p = [] then ['.']
  else
    let rooted := decide (p.head? = some '/')
    let kept := ((splitSep '/' p).foldl (cleanStep rooted) ([], 0)).1
    if rooted then '/' :: joinSep '/' kept
    else if kept = [] then ['.']
    else joinSep '/' kept

/-- Model of `path.Join`: the non-empty elements joined by `/` and cleaned. -/
def pathJoin (elem : List Str) : Str :=
  if elem.all List.isEmpty then []
  else pathClean (joinSep '/' (elem.filter (fun e => !e.isEmpty)))

/-- The part of `os.FileInfo` that `searchDir` reads. -/
structure FileInfo where
  Name : Str
  IsDir : Bool
  deriving DecidableEq, Repr

deriving instance DecidableEq for Except

/-- The file system as the program observes it: the results of `ioutil.ReadDir`,
`io.FileExists` and `ioutil.ReadFile`. An error is its message. -/
structure FS where
  ReadDir : Str → Except Str (List FileInfo)
  FileExists : Str → Bool
  ReadFile : Str → Except Str Str

/-! ## The scanner (`main.go` lines 40-43 and 78-123) -/

/-- The struct `goModule`. -/
structure goModule where
  name : Str
  relDir : Str
  deriving DecidableEq, Repr

/-- The state of a scan: the slice behind the pointer `goModules`, and the directories
that have been passed to `ioutil.ReadDir` so far, oldest first. -/
structure Scan where
  goModules : List goModule
  listed : List Str
  deriving DecidableEq, Repr

/-- The loop over the lines of one `go.mod` in `searchDir` (lines 96-106): appends a
record for the first line that `moduleRE` matches, then breaks. -/
def appendModule (modDir : Str) : List Str → List goModule → List goModule
  | [], goModules => goModules
  | line :: rest, goModules =>
    match moduleRE line with
    | some moduleName => goModules ++ [⟨moduleName, modDir⟩]
    | none => appendModule modDir rest goModules

/-- The loop over the directory entries in `searchDir` (lines 83-107). -/
def searchFiles (fs : FS) (dir : Str) : List FileInfo → List goModule → List goModule × Option Str
  | [], goModules => (goModules, none)
  | f :: files, goModules =>
    if !f.IsDir then searchFiles fs dir files goModules
    else
      let modDir := pathJoin [dir, f.Name]
      let goModFile := pathJoin [modDir, "go.mod".toList]
      if !fs.FileExists goModFile then searchFiles fs dir files goModules
      else
        match fs.ReadFile goModFile with
        | .error err =>
          (goModules, some ("error reading ".toList ++ goModFile ++ ": ".toList ++ err))
        | .ok b => searchFiles fs dir files (appendModule modDir (splitNL b) goModules)

/-- The function `searchDir`: the new state and the returned error (`none` is `nil`). -/
def searchDir (fs : FS) (dir : Str) (s : Scan) : Scan × Option Str :=
  let listed := s.listed ++ [dir]
  match fs.ReadDir dir with
  | .error err =>
    (⟨s.goModules, listed⟩, some ("error listing dir ".toList ++ dir ++ ": ".toList ++ err))
  | .ok files =>
    let r := searchFiles fs dir files s.goModules
    (⟨r.1, listed⟩, r.2)

/-- The inner loop of `findModules` (lines 114-117): the directory of pass `i`. -/
def scanDir (i : Nat) : Str :=
  (List.range i).foldl (fun dir _ => pathJoin ["..".toList, dir]) "..".toList

/-- The outer loop of `findModules` (lines 113-121) over the remaining values of `i`. -/
def findModulesLoop (fs : FS) : List Nat → Scan → Scan × Option Str
  | [], s => (s, none)
  | i :: rest, s =>
    match searchDir fs (scanDir i) s with
    | (s', some err) => (s', some err)
    | (s', none) => findModulesLoop fs rest s'

/-- The function `findModules` with the flag `depth` as a parameter: the directories it
passed to `ioutil.ReadDir`, in order, and the returned pair as an `Except`. -/
def findModules (fs : FS) (depth : Int) (_dir : Str) : List Str × Except Str (List goModule) :=
  match findModulesLoop fs (List.range depth.toNat) ⟨[], []⟩ with
  | (s, some err) => (s.listed, .error err)
  | (s, none) => (s.listed, .ok s.goModules)

/-! ## The planning loop of `realMain` (`main.go` lines 180-191) -/

/-- The slice `repls` that `realMain` builds from `requires` and `goModules`. -/
def realMainRepls (requires : List Str) (goModules : List goModule) : List replacement :=
  requires.foldl
    (fun repls req =>
      goModules.foldl
        (fun repls goMod =>
          if goMod.name = req then repls ++ [⟨goMod.name, goMod.relDir⟩] else repls)
        repls)
    []

/-! ## The program state and `realMain` (`main.go` lines 165-217)

The state is the file system together with the trace of the operations the program has
performed. The outcomes of `ioutil.WriteFile` and of the external command are given by the
state; what the command itself does to files is outside the program and not modelled, and
the output of `log.Printf` is not recorded. -/

/-- An operation of the program: the reads of the manifest by `findRequires` and
`findNewContent`, the listings of the scanner, `fmt.Println`, `ioutil.WriteFile` and
`cmd.Run`. -/
inductive Event where
  | readFile (path : Str)
  | readDir (dir : Str)
  | print (text : Str)
  | writeFile (path content : Str)
  | run (dir : Str) (argv : List Str)
  deriving DecidableEq, Repr

/-- The state of the world: the file system, the error that `ioutil.WriteFile` returns for
a path (`none`: the write succeeds), the error that running a command in a directory
returns (`none`: exit status 0), and the trace of operations, oldest first. -/
structure World where
  fs : FS
  WriteFileErr : Str → Option Str
  RunErr : Str → List Str → Option Str
  trace : List Event

/-- The file system after `content` has been written to `path`. -/
def FS.write (fs : FS) (path content : Str) : FS where
  ReadDir := fs.ReadDir
  FileExists := fun p => decide (p = path) || fs.FileExists p
  ReadFile := fun p => if p = path then .ok content else fs.ReadFile p

/-- Appends an operation to the trace. -/
def World.record (w : World) (e : Event) : World :=
  { w with trace := w.trace ++ [e] }

/-- The function `findRequires` (lines 45-76), reading the file from the state. -/
def findRequiresFile (w : World) (goModFile : Str) : World × Except Str (List Str) :=
  match w.fs.ReadFile goModFile with
  | .error err =>
    (w.record (.readFile goModFile),
      .error ("error reading ".toList ++ goModFile ++ ": ".toList ++ err))
  | .ok b => (w.record (.readFile goModFile), .ok (findRequires b))

/-- The function `findNewContent` (lines 130-163), reading the file from the state. -/
def findNewContentFile (w : World) (goModFile : Str) (repls : List replacement) :
    World × Except Str Str :=
  match w.fs.ReadFile goModFile with
  | .error err =>
    (w.record (.readFile goModFile),
      .error ("error reading ".toList ++ goModFile ++ ": ".toList ++ err))
  | .ok b => (w.record (.readFile goModFile), .ok (findNewContent b repls))

/-- The function `findModules` on the state: its listings are added to the trace. -/
def findModulesWorld (w : World) (depth : Int) (dir : Str) :
    World × Except Str (List goModule) :=
  ({ w with trace := w.trace ++ (findModules w.fs depth dir).1.map Event.readDir },
    (findModules w.fs depth dir).2)

/-- The call `ioutil.WriteFile(path, content, 0755)`: a failed write is taken to leave the
file as it was. -/
def writeFile (w : World) (path content : Str) : World × Option Str :=
  match w.WriteFileErr path with
  | some err => (w.record (.writeFile path content), some err)
  | none =>
    ({ w with fs := w.fs.write path content,
              trace := w.trace ++ [.writeFile path content] }, none)

/-- The call `cmd.Run()` of the command `argv` with `cmd.Dir = dir`. -/
def runCommand (w : World) (dir : Str) (argv : List Str) : World × Option Str :=
  (w.record (.run dir argv), w.RunErr dir argv)

/-- The command line of `exec.Command("go", "mod", "tidy")`. -/
def goModTidy : List Str := ["go".toList, "mod".toList, "tidy".toList]

/-- The function `realMain` with the flags `dir`, `depth` and `dryRun` as parameters: the
final state and the returned error (`none` is `nil`). -/
def realMain (dir : Str) (depth : Int) (dryRun : Bool) (w : World) : World × Option Str :=
  let goModFile := pathJoin [dir, "go.mod".toList]
  if !w.fs.FileExists goModFile then
    (w, some ("no go.mod file: ".toList ++ goModFile ++ " doesn't exist".toList))
  else
    match findRequiresFile w goModFile with
    | (w1, .error err) => (w1, some err)
    | (w1, .ok requires) =>
      match findModulesWorld w1 depth dir with
      | (w2, .error err) => (w2, some err)
      | (w2, .ok goModules) =>
        let repls := realMainRepls requires goModules
        if repls.length = 0 then (w2, none)
        else
          match findNewContentFile w2 goModFile repls with
          | (w3, .error err) => (w3, some err)
          | (w3, .ok newContent) =>
            if dryRun then (w3.record (.print newContent), none)
            else
              match writeFile w3 goModFile newContent with
              | (w4, some err) => (w4, some err)
              | (w4, none) =>
                match runCommand w4 dir goModTidy with
                | (w5, some err) =>
                  (w5, some ("error running go mod tidy: ".toList ++ err))
                | (w5, none) => (w5, none)

/-! ## Specification-side definitions -/

/-- The identifiers captured by the existing `replace <id> => <path>` lines of `c`. -/
def existingIds (c : Str) : List Str := (splitNL c).filterMap replaceRE

/-- The planned directives whose identifier no existing `replace` line of `c` captures,
in plan order. -/
def newRepls (c : Str) (p : List replacement) : List replacement :=
  p.filter (fun r => decide (r.module ∉ existingIds c))

/-- The block that the specification places after a version-declaration line: one empty
line, then one directive line per directive of `newRepls`. -/
def insertedBlock (c : Str) (p : List replacement) : List Str :=
  [] :: (newRepls c p).map replLine

/-- The line sequence of the specification of the rewrite: every line of `c`, each line
matching the version-declaration pattern followed by the inserted block. -/
def specLines (c : Str) (p : List replacement) : List Str :=
  (splitNL c).flatMap (fun l => if goVersionRE l then l :: insertedBlock c p else [l])

/-- The lines of `c` with one empty line after each line matching the version-declaration
pattern. -/
def blankLines (c : Str) : List Str :=
  (splitNL c).flatMap (fun l => if goVersionRE l then [l, []] else [l])

/-- Whether `ys` arises from `xs` by insertion only: the elements of `xs` occur in `ys`
unchanged and in their order, and every other element of `ys` is accepted by `ok`. -/
def insertedOnly (ok : Str → Bool) : List Str → List Str → Bool
  | [], ys => ys.all ok
  | _ :: _, [] => false
  | x :: xs, y :: ys =>
    (decide (x = y) && insertedOnly ok xs ys) || (ok y && insertedOnly ok (x :: xs) ys)

/-- Whether a line is empty or the directive line of a planned directive of `p`. -/
def isPlanLine (p : List replacement) (l : Str) : Bool :=
  l.isEmpty || (p.map replLine).contains l

/-- A line inside a `require ( ... )` block: an entry `<whitespace><id> <version>`, or a
line that no pattern of the extractor matches. -/
inductive BlockLine where
  | entry (indent id version : Str)
  | other (line : Str)
  deriving DecidableEq, Repr

/-- A part of a manifest: a single-line requirement `require <id> <version>`, a block, or
a line that no pattern of the extractor matches. -/
inductive Item where
  | single (id version : Str)
  | block (body : List BlockLine)
  | other (line : Str)
  deriving Repr

/-- Whether no pattern of the extractor matches the newline-free line `l`. -/
def isOtherLine (l : Str) : Bool :=
  !l.contains '\n' && !requireStartRE l && !requireEndRE l &&
    (singleRequireRE l).isNone && (requireRE l).isNone

/-- Whether `s` can indent a block entry: non-empty, of `\s` characters, on one line. -/
def isIndent (s : Str) : Bool :=
  !s.isEmpty && s.all (fun c => isSpace c && !decide (c = '\n'))

/-- The text of a block line. -/
def BlockLine.line : BlockLine → Str
  | .entry indent id version => indent ++ id ++ ' ' :: version
  | .other line => line

/-- The identifiers a block line declares. -/
def BlockLine.ids : BlockLine → List Str
  | .entry _ id _ => [id]
  | .other _ => []

/-- Whether a block line is well formed. -/
def BlockLine.wf : BlockLine → Bool
  | .entry indent id version => isIndent indent && isToken id && isToken version
  | .other line => isOtherLine line

/-- The lines of a part of a manifest. -/
def Item.lines : Item → List Str
  | .single id version => ["require ".toList ++ id ++ ' ' :: version]
  | .block body => "require (".toList :: (body.map BlockLine.line ++ [")".toList])
  | .other line => [line]

/-- The identifiers a part of a manifest declares, in order. -/
def Item.ids : Item → List Str
  | .single id _ => [id]
  | .block body => body.flatMap BlockLine.ids
  | .other _ => []

/-- Whether a part of a manifest is well formed. -/
def Item.wf : Item → Bool
  | .single id version => isToken id && isToken version
  | .block body => body.all BlockLine.wf
  | .other line => isOtherLine line

/-- The manifest text made of the given parts, one line after the other. -/
def manifestText (items : List Item) : Str :=
  joinNL (items.flatMap Item.lines)

/-- The reference definition of the replacement plan: for each requirement in order, the
directives of the discovered records of that name, in discovery order. -/
def specPlan (requires : List Str) (goModules : List goModule) : List replacement :=
  requires.flatMap (fun req =>
    (goModules.filter (fun goMod => decide (goMod.name = req))).map
      (fun goMod => ⟨goMod.name, goMod.relDir⟩))

/-- The path made of `k` parent steps: `..`, `../..`, and so on. -/
def parentSteps (k : Nat) : Str := joinSep '/' (List.replicate k "..".toList)

/-- Whether the scan pass `i` of `findModules` returns an error on the file system `fs`. -/
def passFails (fs : FS) (i : Nat) : Bool := (searchDir fs (scanDir i) ⟨[], []⟩).2.isSome

/-- A file system in which no directory can be listed. -/
def unreadableFS : FS where
  ReadDir := fun _ => .error "permission denied".toList
  FileExists := fun _ => false
  ReadFile := fun _ => .error "permission denied".toList

/-- A file system whose only readable directory is `..`, holding the module `a` in the
directory `a` and a plain file. -/
def siblingFS : FS where
  ReadDir := fun dir =>
    if dir = "..".toList then .ok [⟨"a".toList, true⟩, ⟨"notes.txt".toList, false⟩]
    else .error "no such directory".toList
  FileExists := fun path => decide (path = "../a/go.mod".toList)
  ReadFile := fun path =>
    if path = "../a/go.mod".toList then .ok "module github.com/example/a\n\ngo 1.17\n".toList
    else .error "no such file".toList

/-- A state around `siblingFS` whose working directory holds a manifest requiring the
sibling module `a`; writes succeed and `go mod tidy` fails. -/
def siblingWorld : World where
  fs :=
    { ReadDir := siblingFS.ReadDir
      FileExists := fun path =>
        decide (path = "go.mod".toList) || siblingFS.FileExists path
      ReadFile := fun path =>
        if path = "go.mod".toList then
          .ok "module github.com/example/m\n\ngo 1.17\n\nrequire github.com/example/a v1.0.0\n".toList
        else siblingFS.ReadFile path }
  WriteFileErr := fun _ => none
  RunErr := fun _ _ => some "exit status 1".toList
  trace := []

/-- The path of the manifest that `realMain` rewrites. -/
def manifestPath (dir : Str) : Str := pathJoin [dir, "go.mod".toList]

/-- The operations of `realMain` up to the end of the scan: the read of the manifest by
`findRequires`, then the listings of `findModules`. -/
def scanTrace (fs : FS) (dir : Str) (depth : Int) : List Event :=
  Event.readFile (manifestPath dir) :: (findModules fs depth dir).1.map Event.readDir

/-- Whether an operation writes a file or runs a command. -/
def Event.isEffect : Event → Bool
  | .writeFile _ _ => true
  | .run _ _ => true
  | _ => false

/-- Whether the entry `f` of the directory `dir` is a child directory whose manifest
exists and cannot be read. -/
def unreadableChild (fs : FS) (dir : Str) (f : FileInfo) : Bool :=
  f.IsDir && fs.FileExists (pathJoin [pathJoin [dir, f.Name], "go.mod".toList]) &&
    !(fs.ReadFile (pathJoin [pathJoin [dir, f.Name], "go.mod".toList])).isOk

/-- The state `siblingWorld` with a manifest that requires only a module no sibling
declares. -/
def strangerWorld : World :=
  { siblingWorld with
    fs := siblingWorld.fs.write "go.mod".toList
      "module github.com/example/m\n\ngo 1.17\n\nrequire github.com/example/b v1.0.0\n".toList }

/-- Whether `n` can be the name of a directory entry: non-empty, without `/`, and neither
`.` nor `..`. -/
def isPlainName (n : Str) : Bool :=
  !n.isEmpty && !n.contains '/' && !decide (n = ['.']) && !decide (n = ['.', '.'])

/-- The path `<ancestor>/<child>/go.mod` of the manifest of the entry `f` of `dir`. -/
def childManifest (dir : Str) (f : FileInfo) : Str :=
  dir ++ '/' :: f.Name ++ "/go.mod".toList

/-- Whether the scan of `dir` goes on after the entry `f`: `f` is not a child directory
whose manifest exists and cannot be read. -/
def childReadable (fs : FS) (dir : Str) (f : FileInfo) : Bool :=
  !(f.IsDir && fs.FileExists (childManifest dir f) && !(fs.ReadFile (childManifest dir f)).isOk)

/-- The records that the entry `f` of `dir` contributes: for a child directory with a
manifest, one record with the capture of the first line matching `module <identifier>` and
the path `<ancestor>/<child>`, when there is such a line; none otherwise. -/
def childRecord (fs : FS) (dir : Str) (f : FileInfo) : List goModule :=
  if f.IsDir && fs.FileExists (childManifest dir f) then
    match fs.ReadFile (childManifest dir f) with
    | .ok b =>
      match (splitNL b).findSome? moduleRE with
      | some identifier => [⟨identifier, dir ++ '/' :: f.Name⟩]
      | none => []
    | .error _ => []
  else []

/-! ## Lists, `strings.Split` and `strings.Join` -/

theorem foldl_append_flatMap {α β : Type} (f : α → List β) (xs : List α) (init : List β) :
    xs.foldl (fun acc x => acc ++ f x) init = init ++ xs.flatMap f := by
  induction xs generalizing init with
  | nil => simp
  | cons x xs ih => simp [ih, List.append_assoc]

theorem splitSep_ne_nil (sep : Char) (s : Str) : splitSep sep s ≠ [] := by
  cases s with
  | nil => simp [splitSep]
  | cons c cs =>
    unfold splitSep
    split
    · simp
    · split <;> simp

theorem joinSep_cons_cons (sep : Char) (l l' : Str) (ls : List Str) :
    joinSep sep (l :: l' :: ls) = l ++ sep :: joinSep sep (l' :: ls) := rfl

theorem joinSep_cons_of_ne_nil (sep : Char) (l : Str) (ls : List Str) (h : ls ≠ []) :
    joinSep sep (l :: ls) = l ++ sep :: joinSep sep ls := by
  cases ls with
  | nil => exact absurd rfl h
  | cons l' ls => rfl

theorem splitSep_cons_of_ne (sep c : Char) (cs : Str) (h : c ≠ sep) :
    splitSep sep (c :: cs) =
      (c :: (splitSep sep cs).headD []) :: (splitSep sep cs).tail := by
  have hne := splitSep_ne_nil sep cs
  rw [splitSep, if_neg h]
  cases hs : splitSep sep cs with
  | nil => exact absurd hs hne
  | cons l ls => simp

theorem joinSep_splitSep (sep : Char) (s : Str) : joinSep sep (splitSep sep s) = s := by
  induction s with
  | nil => simp [splitSep, joinSep]
  | cons c cs ih =>
    by_cases h : c = sep
    · subst h
      rw [splitSep, if_pos rfl, joinSep_cons_of_ne_nil _ _ _ (splitSep_ne_nil _ _), ih]
      rfl
    · rw [splitSep_cons_of_ne _ _ _ h]
      have hne := splitSep_ne_nil sep cs
      cases hs : splitSep sep cs with
      | nil => exact absurd hs hne
      | cons l ls =>
        rw [hs] at ih
        cases ls with
        | nil => simpa [joinSep] using ih
        | cons l' ls =>
          simp only [List.headD_cons, List.tail_cons, joinSep_cons_cons] at ih ⊢
          rw [List.cons_append, ih]

theorem splitSep_append_sep (sep : Char) (l s : Str) (h : sep ∉ l) :
    splitSep sep (l ++ sep :: s) = l :: splitSep sep s := by
  induction l with
  | nil => simp [splitSep]
  | cons c cs ih =>
    have hc : c ≠ sep := fun e => h (by simp [e])
    have hcs : sep ∉ cs := fun e => h (by simp [e])
    rw [List.cons_append, splitSep_cons_of_ne _ _ _ hc, ih hcs]
    simp

theorem splitSep_of_not_mem (sep : Char) (l : Str) (h : sep ∉ l) : splitSep sep l = [l] := by
  induction l with
  | nil => simp [splitSep]
  | cons c cs ih =>
    have hc : c ≠ sep := fun e => h (by simp [e])
    have hcs : sep ∉ cs := fun e => h (by simp [e])
    rw [splitSep_cons_of_ne _ _ _ hc, ih hcs]
    simp

theorem not_mem_of_mem_splitSep (sep : Char) (s l : Str) (h : l ∈ splitSep sep s) :
    sep ∉ l := by
  induction s generalizing l with
  | nil =>
    simp [splitSep] at h
    simp [h]
  | cons c cs ih =>
    by_cases hc : c = sep
    · subst hc
      rw [splitSep, if_pos rfl] at h
      rcases List.mem_cons.mp h with h | h
      · simp [h]
      · exact ih l h
    · rw [splitSep_cons_of_ne _ _ _ hc] at h
      have hne := splitSep_ne_nil sep cs
      cases hs : splitSep sep cs with
      | nil => exact absurd hs hne
      | cons l0 ls =>
        rw [hs] at h ih
        simp only [List.headD_cons, List.tail_cons] at h
        rcases List.mem_cons.mp h with h | h
        · subst h
          have := ih l0 (by simp)
          intro hm
          rcases List.mem_cons.mp hm with e | e
          · exact hc e.symm
          · exact this e
        · exact ih l (by simp [h])

/-- Splitting a join of lines that hold no separator gives the lines back. -/
theorem splitSep_joinSep (sep : Char) (ls : List Str) (hne : ls ≠ [])
    (h : ∀ l ∈ ls, sep ∉ l) : splitSep sep (joinSep sep ls) = ls := by
  induction ls with
  | nil => exact absurd rfl hne
  | cons l ls ih =>
    cases ls with
    | nil => simpa [joinSep] using splitSep_of_not_mem sep l (h l (by simp))
    | cons l' ls =>
      rw [joinSep_cons_cons, splitSep_append_sep _ _ _ (h l (by simp)),
        ih (by simp) (fun x hx => h x (by simp [hx]))]

theorem joinNL_splitNL (s : Str) : joinNL (splitNL s) = s := joinSep_splitSep '\n' s

/-! ## The rewriter: the loops as list functions -/

theorem existingRepls_eq (b : Str) : existingRepls b = existingIds b := by
  have key : ∀ (xs : List Str) (init : List Str),
      xs.foldl (fun existingRepls line =>
        match replaceRE line with
        | some repl => existingRepls ++ [repl]
        | none => existingRepls) init = init ++ xs.filterMap replaceRE := by
    intro xs
    induction xs with
    | nil => simp
    | cons x xs ih =>
      intro init
      rw [List.foldl_cons, ih]
      cases hx : replaceRE x <;> simp [List.filterMap_cons, hx]
  simpa [existingRepls, existingIds] using key (splitNL b) []

theorem appendRepls_eq (S : Str → Bool) (repls : List replacement) (out : List Str) :
    appendRepls S repls out = out ++ (repls.filter (fun r => !S r.module)).map replLine := by
  unfold appendRepls
  induction repls generalizing out with
  | nil => simp
  | cons r rs ih =>
    rw [List.foldl_cons, ih]
    cases hS : S r.module <;> simp [List.filter_cons, hS]

theorem newContentLines_eq (b : Str) (repls : List replacement) :
    newContentLines b repls = specLines b repls := by
  have hfilter : repls.filter (fun r => !setsString (existingRepls b) r.module)
      = newRepls b repls := by
    unfold newRepls
    congr 1
    funext r
    simp [setsString, existingRepls_eq]
  have key : ∀ (xs : List Str) (init : List Str),
      xs.foldl (fun out line =>
        let out := out ++ [line]
        if goVersionRE line then appendRepls (setsString (existingRepls b)) repls (out ++ [[]])
        else out) init
      = init ++ xs.flatMap (fun l => if goVersionRE l then l :: insertedBlock b repls else [l]) := by
    intro xs
    induction xs with
    | nil => simp
    | cons x xs ih =>
      intro init
      rw [List.foldl_cons, ih]
      cases hx : goVersionRE x
      · simp [hx]
      · simp [hx, appendRepls_eq, hfilter, insertedBlock]
  simpa [newContentLines, specLines] using key (splitNL b) []

theorem splitSep_append_sep_general (sep : Char) (l s : Str) :
    splitSep sep (l ++ sep :: s) = splitSep sep l ++ splitSep sep s := by
  induction l with
  | nil => simp [splitSep]
  | cons c cs ih =>
    by_cases hc : c = sep
    · subst hc
      rw [List.cons_append, splitSep, if_pos rfl, ih, splitSep, if_pos rfl]
      rfl
    · rw [List.cons_append, splitSep_cons_of_ne _ _ _ hc, ih, splitSep_cons_of_ne _ _ _ hc]
      have hne := splitSep_ne_nil sep cs
      cases hs : splitSep sep cs with
      | nil => exact absurd hs hne
      | cons l0 ls => simp

/-- Splitting a join splits every joined element. -/
theorem splitSep_joinSep_flatMap (sep : Char) (ls : List Str) (hne : ls ≠ []) :
    splitSep sep (joinSep sep ls) = ls.flatMap (splitSep sep) := by
  induction ls with
  | nil => exact absurd rfl hne
  | cons l ls ih =>
    cases ls with
    | nil => simp [joinSep]
    | cons l' ls =>
      rw [joinSep_cons_cons, splitSep_append_sep_general, ih (by simp)]
      simp

theorem length_joinSep_succ (sep : Char) (ls : List Str) (hne : ls ≠ []) :
    (joinSep sep ls).length + 1 = (ls.map (fun l => l.length + 1)).sum := by
  induction ls with
  | nil => exact absurd rfl hne
  | cons l ls ih =>
    cases ls with
    | nil => simp [joinSep]
    | cons l' ls =>
      have := ih (by simp)
      rw [joinSep_cons_cons]
      simp only [List.length_append, List.length_cons, List.map_cons, List.sum_cons] at this ⊢
      omega

theorem specLines_ne_nil (c : Str) (p : List replacement) : specLines c p ≠ [] := by
  unfold specLines splitNL
  have hne := splitSep_ne_nil '\n' c
  cases hs : splitSep '\n' c with
  | nil => exact absurd hs hne
  | cons l ls =>
    rw [List.flatMap_cons]
    split <;> simp

theorem findNewContent_eq (c : Str) (p : List replacement) :
    findNewContent c p = joinNL (specLines c p) := by
  rw [findNewContent, newContentLines_eq]

theorem flatMap_of_no_goVersion (xs : List Str) (B : List Str)
    (h : ∀ l ∈ xs, goVersionRE l = false) :
    xs.flatMap (fun l => if goVersionRE l then l :: B else [l]) = xs := by
  induction xs with
  | nil => rfl
  | cons x xs ih =>
    rw [List.flatMap_cons, ih (fun l hl => h l (by simp [hl])), h x (by simp)]
    rfl

/-- Without a version-declaration line nothing is inserted. -/
theorem findNewContent_of_no_goVersion (c : Str) (p : List replacement)
    (h : ∀ l ∈ splitNL c, goVersionRE l = false) : findNewContent c p = c := by
  rw [findNewContent_eq, specLines, flatMap_of_no_goVersion _ _ h, joinNL_splitNL]

theorem sum_flatMap_ge (xs : List Str) (B : List Str) :
    (xs.map (fun l => l.length + 1)).sum + xs.countP goVersionRE ≤
      ((xs.flatMap (fun l => if goVersionRE l then l :: [] :: B else [l])).map
        (fun l => l.length + 1)).sum := by
  induction xs with
  | nil => simp
  | cons x xs ih =>
    rw [List.flatMap_cons, List.map_append, List.sum_append, List.map_cons, List.sum_cons,
      List.countP_cons]
    cases hx : goVersionRE x
    · simp only [Bool.false_eq_true, if_false, List.map_cons, List.map_nil, List.sum_cons,
        List.sum_nil]
      omega
    · simp only [if_true, List.map_cons, List.sum_cons, List.length_nil]
      omega

/-- Every version-declaration line makes the output longer than the input. -/
theorem length_findNewContent_ge (c : Str) (p : List replacement) :
    c.length + (splitNL c).countP goVersionRE ≤ (findNewContent c p).length := by
  have h1 := length_joinSep_succ '\n' (specLines c p) (specLines_ne_nil c p)
  have h2 := length_joinSep_succ '\n' (splitNL c) (splitSep_ne_nil '\n' c)
  have h3 : ((splitNL c).map (fun l => l.length + 1)).sum + (splitNL c).countP goVersionRE ≤
      ((specLines c p).map (fun l => l.length + 1)).sum :=
    sum_flatMap_ge (splitNL c) ((newRepls c p).map replLine)
  have h4 : joinSep '\n' (splitNL c) = c := joinNL_splitNL c
  rw [h4] at h2
  rw [findNewContent_eq]
  unfold joinNL
  omega

/-- The output equals the input exactly when no line matches the version-declaration
pattern. -/
theorem findNewContent_eq_self_iff (c : Str) (p : List replacement) :
    findNewContent c p = c ↔ ∀ l ∈ splitNL c, goVersionRE l = false := by
  constructor
  · intro h l hl
    by_contra hgo
    have hpos : 0 < (splitNL c).countP goVersionRE :=
      List.countP_pos_iff.mpr ⟨l, hl, by simpa using hgo⟩
    have := length_findNewContent_ge c p
    rw [h] at this
    omega
  · exact findNewContent_of_no_goVersion c p

theorem splitNL_findNewContent (c : Str) (p : List replacement) :
    splitNL (findNewContent c p) = (specLines c p).flatMap splitNL := by
  rw [findNewContent_eq]
  exact splitSep_joinSep_flatMap '\n' _ (specLines_ne_nil c p)

theorem splitNL_of_mem_splitNL (c l : Str) (h : l ∈ splitNL c) : splitNL l = [l] :=
  splitSep_of_not_mem '\n' l (not_mem_of_mem_splitSep '\n' c l h)

/-- Every line of the input is a line of the output. -/
theorem mem_splitNL_findNewContent (c : Str) (p : List replacement) (l : Str)
    (h : l ∈ splitNL c) : l ∈ splitNL (findNewContent c p) := by
  rw [splitNL_findNewContent, List.mem_flatMap]
  refine ⟨l, ?_, by rw [splitNL_of_mem_splitNL c l h]; simp⟩
  rw [specLines, List.mem_flatMap]
  exact ⟨l, h, by split <;> simp⟩

theorem newRepls_eq_nil_of_existing (c : Str) (p : List replacement)
    (h : ∀ r ∈ p, r.module ∈ existingIds c) : newRepls c p = [] := by
  rw [newRepls, List.filter_eq_nil_iff]
  intro r hr
  simpa using h r hr

theorem specLines_of_newRepls_nil (c : Str) (p : List replacement) (h : newRepls c p = []) :
    specLines c p = blankLines c := by
  simp [specLines, blankLines, insertedBlock, h]

theorem flatMap_splitNL_lines (c : Str) (B : List Str) (xs : List Str)
    (h : ∀ l ∈ xs, l ∈ splitNL c) :
    (xs.flatMap (fun l => if goVersionRE l then l :: B else [l])).flatMap splitNL =
      xs.flatMap (fun l => if goVersionRE l then l :: B.flatMap splitNL else [l]) := by
  induction xs with
  | nil => rfl
  | cons x xs ih =>
    rw [List.flatMap_cons, List.flatMap_append, ih (fun l hl => h l (by simp [hl])),
      List.flatMap_cons]
    congr 1
    have hx := splitNL_of_mem_splitNL c x (h x (by simp))
    split <;> simp [hx]

/-- The lines of the output: the lines of the input, each version-declaration line followed
by the lines of the inserted block. -/
theorem splitNL_findNewContent_lines (c : Str) (p : List replacement) :
    splitNL (findNewContent c p) =
      (splitNL c).flatMap (fun l =>
        if goVersionRE l then l :: (insertedBlock c p).flatMap splitNL else [l]) := by
  rw [splitNL_findNewContent, specLines]
  exact flatMap_splitNL_lines c _ _ (fun _ h => h)

theorem one_block_of_countP_le_one (B : List Str) (xs : List Str)
    (h : xs.countP goVersionRE ≤ 1) :
    ∃ pre block post : List Str, xs = pre ++ post ∧
      xs.flatMap (fun l => if goVersionRE l then l :: B else [l]) = pre ++ block ++ post ∧
      (block ≠ [] → ∃ l, pre.getLast? = some l ∧ goVersionRE l = true) := by
  induction xs with
  | nil => exact ⟨[], [], [], rfl, rfl, fun h => absurd rfl h⟩
  | cons x xs ih =>
    rw [List.countP_cons] at h
    cases hx : goVersionRE x
    · rw [hx] at h
      obtain ⟨pre, block, post, h1, h2, h3⟩ := ih (by simpa using h)
      refine ⟨x :: pre, block, post, by rw [h1]; rfl, ?_, ?_⟩
      · rw [List.flatMap_cons, h2, hx]
        rfl
      · intro hb
        obtain ⟨l, hl, hgo⟩ := h3 hb
        refine ⟨l, ?_, hgo⟩
        cases pre with
        | nil => simp at hl
        | cons y ys => simpa using hl
    · rw [hx] at h
      have h0 : ∀ l ∈ xs, goVersionRE l = false := by
        have hz : xs.countP goVersionRE = 0 := by simpa using h
        intro l hl
        have := List.countP_eq_zero.mp hz l hl
        simpa using this
      refine ⟨[x], B, xs, rfl, ?_, fun _ => ⟨x, rfl, hx⟩⟩
      rw [List.flatMap_cons, flatMap_of_no_goVersion _ _ h0, hx]
      simp

theorem insertedOnly_cons_self (ok : Str → Bool) (x : Str) (xs ys : List Str)
    (h : insertedOnly ok xs ys = true) : insertedOnly ok (x :: xs) (x :: ys) = true := by
  simp [insertedOnly, h]

theorem insertedOnly_insert (ok : Str → Bool) (y : Str) (xs ys : List Str) (hy : ok y = true)
    (h : insertedOnly ok xs ys = true) : insertedOnly ok xs (y :: ys) = true := by
  cases xs with
  | nil =>
    simp only [insertedOnly] at h ⊢
    simp [hy, h]
  | cons x xs => simp [insertedOnly, hy, h]

theorem insertedOnly_insert_many (ok : Str → Bool) (B xs ys : List Str)
    (hB : ∀ b ∈ B, ok b = true) (h : insertedOnly ok xs ys = true) :
    insertedOnly ok xs (B ++ ys) = true := by
  induction B with
  | nil => simpa using h
  | cons b B ih =>
    exact insertedOnly_insert ok b xs _ (hB b (by simp))
      (ih (fun b' hb' => hB b' (by simp [hb'])))

theorem insertedOnly_flatMap (ok : Str → Bool) (B xs : List Str) (hB : ∀ b ∈ B, ok b = true) :
    insertedOnly ok xs (xs.flatMap (fun l => if goVersionRE l then l :: B else [l])) = true := by
  induction xs with
  | nil => simp [insertedOnly]
  | cons x xs ih =>
    rw [List.flatMap_cons]
    split
    · exact insertedOnly_cons_self ok x xs _ (insertedOnly_insert_many ok B xs _ hB ih)
    · exact insertedOnly_cons_self ok x xs _ ih

theorem newline_not_mem_replLine (r : replacement) (h1 : '\n' ∉ r.module)
    (h2 : '\n' ∉ r.relDir) : '\n' ∉ replLine r := by
  unfold replLine
  simp only [List.mem_append, not_or]
  exact ⟨⟨⟨by decide, h1⟩, by decide⟩, h2⟩

theorem countP_newRepls (c : Str) (p : List replacement) (m : Str) :
    (newRepls c p).countP (fun r => decide (r.module = m)) =
      if m ∈ existingIds c then 0 else p.countP (fun r => decide (r.module = m)) := by
  unfold newRepls
  rw [List.countP_filter]
  split
  · rename_i hm
    rw [List.countP_eq_zero]
    intro r _
    by_cases hr : r.module = m
    · simp [hr, hm]
    · simp [hr]
  · rename_i hm
    apply List.countP_congr
    intro r _
    by_cases hr : r.module = m
    · simp [hr, hm]
    · simp [hr]

/-! ## The extractor on well-formed lines -/

theorem stripPrefix_append (pre s : Str) : stripPrefix pre (pre ++ s) = some s := by
  induction pre with
  | nil => cases s <;> rfl
  | cons c cs ih => simp [stripPrefix, ih]

theorem isToken_iff (s : Str) :
    isToken s = true ↔ s ≠ [] ∧ ∀ c ∈ s, isNonSpace c = true := by
  cases s <;> simp [isToken]

theorem takeWhile_token_blank (id rest : Str) (h : ∀ c ∈ id, isNonSpace c = true) :
    (id ++ ' ' :: rest).takeWhile isNonSpace = id := by
  rw [List.takeWhile_append_of_pos h]
  simp [List.takeWhile, isNonSpace, isSpace]

theorem dropWhile_token_blank (id rest : Str) (h : ∀ c ∈ id, isNonSpace c = true) :
    (id ++ ' ' :: rest).dropWhile isNonSpace = ' ' :: rest := by
  rw [List.dropWhile_append_of_pos h]
  simp [List.dropWhile, isNonSpace, isSpace]

theorem singleRequireRE_single (id version : Str) (hid : isToken id = true)
    (hv : isToken version = true) :
    singleRequireRE ("require ".toList ++ id ++ ' ' :: version) = some id := by
  have hid' := (isToken_iff id).mp hid
  unfold singleRequireRE
  rw [List.append_assoc, stripPrefix_append]
  simp only [takeWhile_token_blank id version hid'.2, dropWhile_token_blank id version hid'.2]
  cases id with
  | nil => exact absurd rfl hid'.1
  | cons c cs => simp [hv]

theorem requireStartRE_single (id version : Str) (hid : isToken id = true) :
    requireStartRE ("require ".toList ++ id ++ ' ' :: version) = false := by
  have hid' := (isToken_iff id).mp hid
  cases id with
  | nil => exact absurd rfl hid'.1
  | cons c cs =>
    simp only [requireStartRE, decide_eq_false_iff_not]
    intro h
    have := congrArg List.length h
    simp at this

theorem isIndent_iff (s : Str) :
    isIndent s = true ↔ s ≠ [] ∧ ∀ c ∈ s, isSpace c = true ∧ c ≠ '\n' := by
  cases s <;> simp [isIndent]

theorem requireRE_entry (indent id version : Str) (hi : isIndent indent = true)
    (hid : isToken id = true) (hv : isToken version = true) :
    requireRE (indent ++ id ++ ' ' :: version) = some id := by
  have hi' := (isIndent_iff indent).mp hi
  have hid' := (isToken_iff id).mp hid
  have hsp : ∀ c ∈ indent, isSpace c = true := fun c hc => (hi'.2 c hc).1
  cases id with
  | nil => exact absurd rfl hid'.1
  | cons c cs =>
    have hc : isSpace c = false := by
      have := hid'.2 c (by simp)
      simpa [isNonSpace] using this
    have hdrop : (indent ++ (c :: cs) ++ ' ' :: version).dropWhile isSpace
        = (c :: cs) ++ ' ' :: version := by
      rw [List.append_assoc, List.dropWhile_append_of_pos hsp]
      simp [List.dropWhile, hc]
    have htake : (indent ++ (c :: cs) ++ ' ' :: version).takeWhile isSpace = indent := by
      rw [List.append_assoc, List.takeWhile_append_of_pos hsp]
      simp [List.takeWhile, hc]
    unfold requireRE
    simp only [hdrop, htake, takeWhile_token_blank (c :: cs) version hid'.2,
      dropWhile_token_blank (c :: cs) version hid'.2]
    cases indent with
    | nil => exact absurd rfl hi'.1
    | cons d ds => simp [hv]

theorem requireEndRE_entry (indent id version : Str) (hi : isIndent indent = true) :
    requireEndRE (indent ++ id ++ ' ' :: version) = false := by
  have hi' := (isIndent_iff indent).mp hi
  cases indent with
  | nil => exact absurd rfl hi'.1
  | cons d ds =>
    have hd := (hi'.2 d (by simp)).1
    simp only [requireEndRE, decide_eq_false_iff_not]
    intro h
    have hd' : d = ')' := by
      have := congrArg List.head? h
      simpa using this
    rw [hd'] at hd
    revert hd
    decide

theorem isOtherLine_iff (l : Str) :
    isOtherLine l = true ↔ '\n' ∉ l ∧ requireStartRE l = false ∧ requireEndRE l = false ∧
      singleRequireRE l = none ∧ requireRE l = none := by
  simp [isOtherLine, and_assoc]

theorem findRequiresStep_blockLine (acc : List Str) (bl : BlockLine) (h : bl.wf = true) :
    findRequiresStep (acc, true) bl.line = (acc ++ bl.ids, true) := by
  cases bl with
  | entry indent id version =>
    simp only [BlockLine.wf, Bool.and_eq_true] at h
    simp only [findRequiresStep, BlockLine.line, BlockLine.ids]
    rw [requireEndRE_entry indent id version h.1.1,
      requireRE_entry indent id version h.1.1 h.1.2 h.2]
    simp
  | other line =>
    have h' := (isOtherLine_iff line).mp h
    simp [findRequiresStep, BlockLine.line, BlockLine.ids, h'.2.2.1, h'.2.2.2.2]

theorem foldl_findRequiresStep_body (body : List BlockLine) (acc : List Str)
    (h : ∀ bl ∈ body, bl.wf = true) :
    (body.map BlockLine.line).foldl findRequiresStep (acc, true) =
      (acc ++ body.flatMap BlockLine.ids, true) := by
  induction body generalizing acc with
  | nil => simp
  | cons bl body ih =>
    rw [List.map_cons, List.foldl_cons, findRequiresStep_blockLine acc bl (h bl (by simp)),
      ih _ (fun b hb => h b (by simp [hb]))]
    simp

theorem foldl_findRequiresStep_item (it : Item) (acc : List Str) (h : it.wf = true) :
    it.lines.foldl findRequiresStep (acc, false) = (acc ++ it.ids, false) := by
  cases it with
  | single id version =>
    simp only [Item.wf, Bool.and_eq_true] at h
    simp only [Item.lines, Item.ids, List.foldl_cons, List.foldl_nil, findRequiresStep]
    rw [requireStartRE_single id version h.1, singleRequireRE_single id version h.1 h.2]
    simp
  | block body =>
    have hb : ∀ bl ∈ body, bl.wf = true := by simpa [Item.wf] using h
    have hstart : findRequiresStep (acc, false) "require (".toList = (acc, true) := by
      simp [findRequiresStep, requireStartRE]
    have hend : ∀ acc', findRequiresStep (acc', true) ")".toList = (acc', false) := by
      intro acc'
      simp [findRequiresStep, requireEndRE]
    rw [Item.lines, List.foldl_cons, hstart, List.foldl_append,
      foldl_findRequiresStep_body body acc hb, List.foldl_cons, hend, List.foldl_nil]
    rfl
  | other line =>
    have h' := (isOtherLine_iff line).mp h
    simp [Item.lines, Item.ids, findRequiresStep, h'.2.1, h'.2.2.2.1]

theorem foldl_findRequiresStep_items (items : List Item) (acc : List Str)
    (h : ∀ it ∈ items, it.wf = true) :
    (items.flatMap Item.lines).foldl findRequiresStep (acc, false) =
      (acc ++ items.flatMap Item.ids, false) := by
  induction items generalizing acc with
  | nil => simp
  | cons it items ih =>
    rw [List.flatMap_cons, List.foldl_append, foldl_findRequiresStep_item it acc (h it (by simp)),
      ih _ (fun i hi => h i (by simp [hi]))]
    simp

theorem newline_not_mem_blockLine (bl : BlockLine) (h : bl.wf = true) : '\n' ∉ bl.line := by
  cases bl with
  | entry indent id version =>
    simp only [BlockLine.wf, Bool.and_eq_true] at h
    have hi := ((isIndent_iff indent).mp h.1.1).2
    have hid := ((isToken_iff id).mp h.1.2).2
    have hv := ((isToken_iff version).mp h.2).2
    have hns : isNonSpace '\n' = false := by decide
    simp only [BlockLine.line, List.mem_append, List.mem_cons, not_or]
    refine ⟨⟨fun hm => (hi _ hm).2 rfl, fun hm => ?_⟩, by decide, fun hm => ?_⟩
    · have := hid _ hm
      rw [hns] at this
      exact Bool.noConfusion this
    · have := hv _ hm
      rw [hns] at this
      exact Bool.noConfusion this
  | other line => exact ((isOtherLine_iff line).mp h).1

theorem newline_not_mem_item_lines (it : Item) (h : it.wf = true) :
    ∀ l ∈ it.lines, '\n' ∉ l := by
  cases it with
  | single id version =>
    simp only [Item.wf, Bool.and_eq_true] at h
    have hid := ((isToken_iff id).mp h.1).2
    have hv := ((isToken_iff version).mp h.2).2
    have hns : isNonSpace '\n' = false := by decide
    intro l hl
    simp only [Item.lines, List.mem_singleton] at hl
    subst hl
    simp only [List.mem_append, List.mem_cons, not_or]
    refine ⟨⟨by decide, fun hm => ?_⟩, by decide, fun hm => ?_⟩
    · have := hid _ hm
      rw [hns] at this
      exact Bool.noConfusion this
    · have := hv _ hm
      rw [hns] at this
      exact Bool.noConfusion this
  | block body =>
    have hb : ∀ bl ∈ body, bl.wf = true := by simpa [Item.wf] using h
    intro l hl
    simp only [Item.lines, List.mem_cons, List.mem_append, List.mem_map, List.mem_singleton,
      List.not_mem_nil, or_false] at hl
    rcases hl with rfl | ⟨bl, hbl, rfl⟩ | rfl
    · decide
    · exact newline_not_mem_blockLine bl (hb bl hbl)
    · decide
  | other line =>
    intro l hl
    simp only [Item.lines, List.mem_singleton] at hl
    rw [hl]
    exact ((isOtherLine_iff line).mp h).1

/-! ## The planning loop and the scanner -/

theorem realMainRepls_eq_specPlan (requires : List Str) (goModules : List goModule) :
    realMainRepls requires goModules = specPlan requires goModules := by
  have inner : ∀ (req : Str) (ms : List goModule) (repls : List replacement),
      ms.foldl (fun repls goMod =>
        if goMod.name = req then repls ++ [(⟨goMod.name, goMod.relDir⟩ : replacement)]
        else repls) repls
      = repls ++ (ms.filter (fun goMod => decide (goMod.name = req))).map
          (fun goMod => (⟨goMod.name, goMod.relDir⟩ : replacement)) := by
    intro req ms
    induction ms with
    | nil => simp
    | cons g ms ih =>
      intro repls
      rw [List.foldl_cons, ih]
      by_cases hg : g.name = req <;> simp [List.filter_cons, hg]
  unfold realMainRepls specPlan
  simp only [inner]
  rw [foldl_append_flatMap, List.nil_append]

theorem length_specPlan (requires : List Str) (goModules : List goModule) :
    (specPlan requires goModules).length =
      (requires.map (fun req =>
        goModules.countP (fun goMod => decide (goMod.name = req)))).sum := by
  unfold specPlan
  rw [List.length_flatMap]
  congr 1
  apply List.map_congr_left
  intro req _
  simp [List.countP_eq_length_filter]

theorem foldl_cleanStep_parents (k j : Nat) :
    (List.replicate k "..".toList).foldl (cleanStep false)
        (List.replicate j "..".toList, j) =
      (List.replicate (j + k) "..".toList, j + k) := by
  induction k generalizing j with
  | zero => rfl
  | succ k ih =>
    have hstep : cleanStep false (List.replicate j "..".toList, j) "..".toList =
        (List.replicate (j + 1) "..".toList, j + 1) := by
      have h1 : ("..".toList = ([] : Str) ∨ "..".toList = ['.']) = False := by decide
      have h2 : ("..".toList = ['.', '.']) = True := by decide
      simp only [cleanStep, h1, h2, if_true, if_false, List.length_replicate, lt_irrefl,
        Bool.false_eq_true]
      rw [List.replicate_succ']
    rw [List.replicate_succ, List.foldl_cons, hstep, ih,
      show j + 1 + k = j + (k + 1) by omega]

theorem parentSteps_ne_nil (k : Nat) : parentSteps (k + 1) ≠ [] := by
  unfold parentSteps
  rw [List.replicate_succ]
  cases hr : List.replicate k "..".toList with
  | nil => decide
  | cons l ls =>
    rw [joinSep_cons_cons]
    simp

theorem parentSteps_succ_succ (k : Nat) :
    parentSteps (k + 2) = "..".toList ++ '/' :: parentSteps (k + 1) := by
  unfold parentSteps
  rw [List.replicate_succ, List.replicate_succ, joinSep_cons_cons]

theorem head?_parentSteps (k : Nat) : (parentSteps (k + 1)).head? = some '.' := by
  cases k with
  | zero => rfl
  | succ k => rw [parentSteps_succ_succ]; rfl

theorem pathClean_parentSteps (k : Nat) : pathClean (parentSteps (k + 1)) = parentSteps (k + 1) := by
  have hsplit : splitSep '/' (parentSteps (k + 1)) = List.replicate (k + 1) "..".toList := by
    apply splitSep_joinSep
    · simp [List.replicate_succ]
    · intro l hl
      rw [(List.eq_replicate_iff.mp rfl).2 l hl]
      decide
  have hroot : decide ((parentSteps (k + 1)).head? = some '/') = false := by
    rw [head?_parentSteps]
    decide
  have hfold := foldl_cleanStep_parents (k + 1) 0
  rw [Nat.zero_add] at hfold
  have hk : List.replicate (k + 1) "..".toList ≠ [] := by simp [List.replicate_succ]
  unfold pathClean
  rw [if_neg (parentSteps_ne_nil k), hsplit, hroot]
  simp only [Bool.false_eq_true, if_false]
  rw [show (List.replicate 0 "..".toList, 0) = (([] : List Str), 0) from rfl] at hfold
  rw [hfold, if_neg hk]
  rfl

theorem pathJoin_parentSteps (k : Nat) :
    pathJoin ["..".toList, parentSteps (k + 1)] = parentSteps (k + 2) := by
  have hne := parentSteps_ne_nil k
  have hemp : (parentSteps (k + 1)).isEmpty = false := by
    cases h : parentSteps (k + 1) with
    | nil => exact absurd h hne
    | cons c cs => rfl
  have h1 : (["..".toList, parentSteps (k + 1)].all List.isEmpty) = false := by
    simp [hemp]
  have h2 : ["..".toList, parentSteps (k + 1)].filter (fun e => !e.isEmpty) =
      ["..".toList, parentSteps (k + 1)] := by
    simp [List.filter_cons, hemp]
  have h3 : joinSep '/' ["..".toList, parentSteps (k + 1)] = parentSteps (k + 2) := by
    rw [parentSteps_succ_succ]
    rfl
  unfold pathJoin
  rw [h1, h2, h3]
  exact pathClean_parentSteps (k + 1)

/-- The directory of pass `i` is the path of `i + 1` parent steps. -/
theorem scanDir_eq_parentSteps (i : Nat) : scanDir i = parentSteps (i + 1) := by
  induction i with
  | zero => rfl
  | succ i ih =>
    have : scanDir (i + 1) = pathJoin ["..".toList, scanDir i] := by
      unfold scanDir
      rw [List.range_succ, List.foldl_append]
      rfl
    rw [this, ih, pathJoin_parentSteps]

theorem searchFiles_snd_indep (fs : FS) (dir : Str) (files : List FileInfo)
    (gm gm' : List goModule) :
    (searchFiles fs dir files gm).2 = (searchFiles fs dir files gm').2 := by
  induction files generalizing gm gm' with
  | nil => rfl
  | cons f files ih =>
    unfold searchFiles
    split
    · exact ih gm gm'
    · simp only
      split
      · exact ih gm gm'
      · split
        · rfl
        · exact ih _ _

theorem searchDir_snd_indep (fs : FS) (dir : Str) (s s' : Scan) :
    (searchDir fs dir s).2 = (searchDir fs dir s').2 := by
  unfold searchDir
  cases fs.ReadDir dir with
  | error err => rfl
  | ok files => exact searchFiles_snd_indep fs dir files _ _

theorem searchDir_listed (fs : FS) (dir : Str) (s : Scan) :
    (searchDir fs dir s).1.listed = s.listed ++ [dir] := by
  unfold searchDir
  cases fs.ReadDir dir <;> rfl

theorem passFails_eq (fs : FS) (i : Nat) (s : Scan) :
    passFails fs i = (searchDir fs (scanDir i) s).2.isSome := by
  unfold passFails
  rw [searchDir_snd_indep fs (scanDir i) ⟨[], []⟩ s]

/-- The outer loop makes the passes of a prefix of its index list: all of it when it
returns no error, and otherwise up to the first failing pass. -/
theorem findModulesLoop_passes (fs : FS) (is : List Nat) (s : Scan) :
    ∃ done rest : List Nat, is = done ++ rest ∧
      (findModulesLoop fs is s).1.listed = s.listed ++ done.map scanDir ∧
      (((findModulesLoop fs is s).2 = none ∧ rest = [] ∧ ∀ i ∈ done, passFails fs i = false) ∨
        ((findModulesLoop fs is s).2 ≠ none ∧ ∃ init last, done = init ++ [last] ∧
          (∀ i ∈ init, passFails fs i = false) ∧ passFails fs last = true)) := by
  induction is generalizing s with
  | nil => exact ⟨[], [], rfl, by simp [findModulesLoop], Or.inl ⟨rfl, rfl, by simp⟩⟩
  | cons i is ih =>
    have hl := searchDir_listed fs (scanDir i) s
    have hp := passFails_eq fs i s
    unfold findModulesLoop
    cases hsd : searchDir fs (scanDir i) s with
    | mk s' err =>
      rw [hsd] at hl hp
      cases err with
      | some e =>
        refine ⟨[i], is, rfl, by simpa using hl, Or.inr ⟨by simp, [], i, rfl, by simp, ?_⟩⟩
        simpa using hp
      | none =>
        have hpi : passFails fs i = false := by simpa using hp
        obtain ⟨done, rest, h1, h2, h3⟩ := ih s'
        refine ⟨i :: done, rest, by rw [h1]; rfl, ?_, ?_⟩
        · simp only
          rw [h2]
          simp only at hl
          rw [hl]
          simp
        · simp only
          rcases h3 with ⟨h3, h4, h5⟩ | ⟨h3, init, last, h4, h5, h6⟩
          · refine Or.inl ⟨h3, h4, ?_⟩
            intro j hj
            rcases List.mem_cons.mp hj with rfl | hj
            · exact hpi
            · exact h5 j hj
          · refine Or.inr ⟨h3, i :: init, last, by rw [h4]; rfl, ?_, h6⟩
            intro j hj
            rcases List.mem_cons.mp hj with rfl | hj
            · exact hpi
            · exact h5 j hj

theorem range_eq_append (n : Nat) (done rest : List Nat) (h : List.range n = done ++ rest) :
    done = List.range done.length ∧ done.length ≤ n := by
  have hlen : done.length ≤ n := by
    have := congrArg List.length h
    simp at this
    omega
  have h1 : (List.range n).take done.length = done := by
    rw [h, List.take_left]
  rw [List.take_range, Nat.min_eq_left hlen] at h1
  exact ⟨h1.symm, hlen⟩

/-! ## The paths of `realMain` -/

theorem realMain_no_manifest (dir : Str) (depth : Int) (dryRun : Bool) (w : World)
    (hE : w.fs.FileExists (manifestPath dir) = false) :
    realMain dir depth dryRun w =
      (w, some ("no go.mod file: ".toList ++ manifestPath dir ++ " doesn't exist".toList)) := by
  have hg : pathJoin [dir, "go.mod".toList] = manifestPath dir := rfl
  unfold realMain
  simp only [hg]
  generalize manifestPath dir = g at hE ⊢
  simp [hE]

theorem realMain_read_error (dir : Str) (depth : Int) (dryRun : Bool) (w : World) (err : Str)
    (hE : w.fs.FileExists (manifestPath dir) = true)
    (hR : w.fs.ReadFile (manifestPath dir) = .error err) :
    realMain dir depth dryRun w =
      ({ w with trace := w.trace ++ [Event.readFile (manifestPath dir)] },
        some ("error reading ".toList ++ manifestPath dir ++ ": ".toList ++ err)) := by
  have hg : pathJoin [dir, "go.mod".toList] = manifestPath dir := rfl
  unfold realMain
  simp only [hg]
  generalize manifestPath dir = g at hE hR ⊢
  simp [hE, hR, manifestPath, findRequiresFile, World.record]

theorem realMain_scan_error (dir : Str) (depth : Int) (dryRun : Bool) (w : World)
    (b err : Str)
    (hE : w.fs.FileExists (manifestPath dir) = true)
    (hR : w.fs.ReadFile (manifestPath dir) = .ok b)
    (hM : (findModules w.fs depth dir).2 = .error err) :
    realMain dir depth dryRun w =
      ({ w with trace := w.trace ++ scanTrace w.fs dir depth }, some err) := by
  have hg : pathJoin [dir, "go.mod".toList] = manifestPath dir := rfl
  unfold realMain scanTrace
  simp only [hg]
  generalize manifestPath dir = g at hE hR ⊢
  simp [hE, hR, hM, findRequiresFile, findModulesWorld,
    World.record]

theorem realMain_empty_plan (dir : Str) (depth : Int) (dryRun : Bool) (w : World)
    (b : Str) (ms : List goModule)
    (hE : w.fs.FileExists (manifestPath dir) = true)
    (hR : w.fs.ReadFile (manifestPath dir) = .ok b)
    (hM : (findModules w.fs depth dir).2 = .ok ms)
    (hP : realMainRepls (findRequires b) ms = []) :
    realMain dir depth dryRun w =
      ({ w with trace := w.trace ++ scanTrace w.fs dir depth }, none) := by
  have hg : pathJoin [dir, "go.mod".toList] = manifestPath dir := rfl
  unfold realMain scanTrace
  simp only [hg]
  generalize manifestPath dir = g at hE hR ⊢
  simp [hE, hR, hM, hP, findRequiresFile, findModulesWorld,
    World.record]

theorem realMain_dry_run (dir : Str) (depth : Int) (w : World)
    (b : Str) (ms : List goModule)
    (hE : w.fs.FileExists (manifestPath dir) = true)
    (hR : w.fs.ReadFile (manifestPath dir) = .ok b)
    (hM : (findModules w.fs depth dir).2 = .ok ms)
    (hP : realMainRepls (findRequires b) ms ≠ []) :
    realMain dir depth true w =
      ({ w with trace := w.trace ++ scanTrace w.fs dir depth ++
          [Event.readFile (manifestPath dir),
            Event.print (findNewContent b (realMainRepls (findRequires b) ms))] }, none) := by
  have hg : pathJoin [dir, "go.mod".toList] = manifestPath dir := rfl
  unfold realMain scanTrace
  simp only [hg]
  generalize manifestPath dir = g at hE hR ⊢
  simp [hE, hR, hM, hP, findRequiresFile, findModulesWorld,
    findNewContentFile, World.record]

theorem realMain_write_error (dir : Str) (depth : Int) (w : World)
    (b err : Str) (ms : List goModule)
    (hE : w.fs.FileExists (manifestPath dir) = true)
    (hR : w.fs.ReadFile (manifestPath dir) = .ok b)
    (hM : (findModules w.fs depth dir).2 = .ok ms)
    (hP : realMainRepls (findRequires b) ms ≠ [])
    (hW : w.WriteFileErr (manifestPath dir) = some err) :
    realMain dir depth false w =
      ({ w with trace := w.trace ++ scanTrace w.fs dir depth ++
          [Event.readFile (manifestPath dir),
            Event.writeFile (manifestPath dir)
              (findNewContent b (realMainRepls (findRequires b) ms))] }, some err) := by
  have hg : pathJoin [dir, "go.mod".toList] = manifestPath dir := rfl
  unfold realMain scanTrace
  simp only [hg]
  generalize manifestPath dir = g at hE hR hW ⊢
  simp [hE, hR, hM, hP, hW, findRequiresFile,
    findModulesWorld, findNewContentFile, writeFile, World.record]

theorem realMain_written (dir : Str) (depth : Int) (w : World)
    (b : Str) (ms : List goModule)
    (hE : w.fs.FileExists (manifestPath dir) = true)
    (hR : w.fs.ReadFile (manifestPath dir) = .ok b)
    (hM : (findModules w.fs depth dir).2 = .ok ms)
    (hP : realMainRepls (findRequires b) ms ≠ [])
    (hW : w.WriteFileErr (manifestPath dir) = none) :
    realMain dir depth false w =
      ({ w with
          fs := w.fs.write (manifestPath dir)
            (findNewContent b (realMainRepls (findRequires b) ms)),
          trace := w.trace ++ scanTrace w.fs dir depth ++
            [Event.readFile (manifestPath dir),
              Event.writeFile (manifestPath dir)
                (findNewContent b (realMainRepls (findRequires b) ms)),
              Event.run dir goModTidy] },
        (w.RunErr dir goModTidy).map (fun err => "error running go mod tidy: ".toList ++ err)) := by
  have hg : pathJoin [dir, "go.mod".toList] = manifestPath dir := rfl
  unfold realMain scanTrace
  simp only [hg]
  generalize manifestPath dir = g at hE hR hW ⊢
  cases hrun : w.RunErr dir goModTidy <;>
  simp [hE, hR, hM, hP, hW, hrun, findRequiresFile,
    findModulesWorld, findNewContentFile, writeFile, runCommand, World.record]

theorem scanTrace_no_effect (fs : FS) (dir : Str) (depth : Int) :
    ∀ e ∈ scanTrace fs dir depth, e.isEffect = false := by
  intro e he
  rcases List.mem_cons.mp he with rfl | he
  · rfl
  · obtain ⟨d, _, rfl⟩ := List.mem_map.mp he
    rfl

theorem realMainRepls_eq_nil_of_no_match (requires : List Str) (ms : List goModule)
    (h : ∀ req ∈ requires, ∀ g ∈ ms, g.name ≠ req) : realMainRepls requires ms = [] := by
  rw [realMainRepls_eq_specPlan, specPlan, List.flatMap_eq_nil_iff]
  intro req hreq
  rw [List.map_eq_nil_iff, List.filter_eq_nil_iff]
  intro g hg
  simpa using h req hreq g hg

theorem count_readFile_scanTrace (fs : FS) (dir : Str) (depth : Int) :
    (scanTrace fs dir depth).count (Event.readFile (manifestPath dir)) = 1 := by
  unfold scanTrace
  rw [List.count_cons_self, List.count_eq_zero.mpr]
  intro h
  obtain ⟨d, _, hd⟩ := List.mem_map.mp h
  exact Event.noConfusion hd

theorem searchFiles_unreadable (fs : FS) (dir : Str) (files : List FileInfo)
    (gm : List goModule) (f : FileInfo) (hf : f ∈ files)
    (hu : unreadableChild fs dir f = true) :
    (searchFiles fs dir files gm).2.isSome = true := by
  induction files generalizing gm with
  | nil => simp at hf
  | cons x files ih =>
    unfold searchFiles
    rcases List.mem_cons.mp hf with rfl | hf
    · simp only [unreadableChild, Bool.and_eq_true, Bool.not_eq_true'] at hu
      obtain ⟨⟨hd, he⟩, hr⟩ := hu
      simp only [hd, he, Bool.not_true, Bool.false_eq_true, if_false]
      cases hrd : fs.ReadFile (pathJoin [pathJoin [dir, f.Name], "go.mod".toList]) with
      | error err => rfl
      | ok b =>
        rw [hrd] at hr
        exact Bool.noConfusion hr
    · split
      · exact ih gm hf
      · simp only
        split
        · exact ih gm hf
        · split
          · rfl
          · exact ih _ hf

theorem passFails_of_failure (fs : FS) (i : Nat)
    (h : (∃ err, fs.ReadDir (parentSteps (i + 1)) = .error err) ∨
      ∃ files f, fs.ReadDir (parentSteps (i + 1)) = .ok files ∧ f ∈ files ∧
        unreadableChild fs (parentSteps (i + 1)) f = true) :
    passFails fs i = true := by
  unfold passFails searchDir
  rw [scanDir_eq_parentSteps]
  rcases h with ⟨err, h⟩ | ⟨files, f, h, hf, hu⟩
  · rw [h]
    rfl
  · rw [h]
    exact searchFiles_unreadable fs _ files _ f hf hu

/-- A failing pass below the depth makes `findModules` return an error. -/
theorem findModules_error_of_passFails (fs : FS) (depth : Int) (dir : Str) (i : Nat)
    (hi : i < depth.toNat) (hp : passFails fs i = true) :
    ∃ err, (findModules fs depth dir).2 = .error err := by
  obtain ⟨done, rest, h1, -, h3⟩ :=
    findModulesLoop_passes fs (List.range depth.toNat) ⟨[], []⟩
  unfold findModules
  rcases h3 with ⟨-, h4, h5⟩ | ⟨h3, -⟩
  · subst h4
    rw [List.append_nil] at h1
    have := h5 i (by rw [← h1]; exact List.mem_range.mpr hi)
    rw [hp] at this
    exact Bool.noConfusion this
  · cases hloop : findModulesLoop fs (List.range depth.toNat) ⟨[], []⟩ with
    | mk s err =>
      rw [hloop] at h3
      cases err with
      | none => exact absurd rfl h3
      | some e => exact ⟨e, rfl⟩

/-! ## More on the extractor and the scanner -/

theorem foldl_findRequiresStep_no_declaration (lines : List Str)
    (h : ∀ l ∈ lines, singleRequireRE l = none ∧ requireStartRE l = false) :
    lines.foldl findRequiresStep ([], false) = ([], false) := by
  induction lines with
  | nil => rfl
  | cons l lines ih =>
    have hl := h l (by simp)
    have hstep : findRequiresStep ([], false) l = ([], false) := by
      simp [findRequiresStep, hl.1, hl.2]
    rw [List.foldl_cons, hstep]
    exact ih (fun x hx => h x (by simp [hx]))

theorem findModules_fst (fs : FS) (depth : Int) (dir : Str) :
    (findModules fs depth dir).1 =
      (findModulesLoop fs (List.range depth.toNat) ⟨[], []⟩).1.listed := by
  unfold findModules
  split <;> rename_i hloop <;> rw [hloop]

theorem isToken_append_space (version t : Str) (c : Char) (hc : isSpace c = true) :
    isToken (version ++ c :: t) = false := by
  have : (version ++ c :: t).all isNonSpace = false := by
    rw [List.all_eq_false]
    exact ⟨c, by simp, by simp [isNonSpace, hc]⟩
  simp [isToken, this]

theorem singleRequireRE_trailing (id version t : Str) (c : Char) (hid : isToken id = true)
    (hc : isSpace c = true) :
    singleRequireRE ("require ".toList ++ id ++ ' ' :: (version ++ c :: t)) = none := by
  have hid' := (isToken_iff id).mp hid
  unfold singleRequireRE
  rw [List.append_assoc, stripPrefix_append]
  simp only [takeWhile_token_blank id _ hid'.2, dropWhile_token_blank id _ hid'.2,
    isToken_append_space version t c hc]
  simp

theorem requireRE_trailing (indent id version t : Str) (c : Char)
    (hi : isIndent indent = true) (hid : isToken id = true) (hc : isSpace c = true) :
    requireRE (indent ++ id ++ ' ' :: (version ++ c :: t)) = none := by
  have hi' := (isIndent_iff indent).mp hi
  have hid' := (isToken_iff id).mp hid
  have hsp : ∀ x ∈ indent, isSpace x = true := fun x hx => (hi'.2 x hx).1
  cases id with
  | nil => exact absurd rfl hid'.1
  | cons a as =>
    have ha : isSpace a = false := by
      have := hid'.2 a (by simp)
      simpa [isNonSpace] using this
    have hdrop : (indent ++ (a :: as) ++ ' ' :: (version ++ c :: t)).dropWhile isSpace
        = (a :: as) ++ ' ' :: (version ++ c :: t) := by
      rw [List.append_assoc, List.dropWhile_append_of_pos hsp]
      simp [List.dropWhile, ha]
    unfold requireRE
    simp only [hdrop, takeWhile_token_blank (a :: as) _ hid'.2,
      dropWhile_token_blank (a :: as) _ hid'.2, isToken_append_space version t c hc]
    simp

theorem findRequiresStep_single_trailing (id version t : Str) (c : Char)
    (hid : isToken id = true) (hc : isSpace c = true) (acc : List Str) :
    findRequiresStep (acc, false) ("require ".toList ++ id ++ ' ' :: (version ++ c :: t)) =
      (acc, false) := by
  simp only [findRequiresStep]
  rw [requireStartRE_single id _ hid, singleRequireRE_trailing id version t c hid hc]
  simp

theorem findRequiresStep_entry_trailing (indent id version t : Str) (c : Char)
    (hi : isIndent indent = true) (hid : isToken id = true) (hc : isSpace c = true)
    (acc : List Str) :
    findRequiresStep (acc, true) (indent ++ id ++ ' ' :: (version ++ c :: t)) =
      (acc, true) := by
  simp only [findRequiresStep]
  rw [requireEndRE_entry indent id _ hi, requireRE_trailing indent id version t c hi hid hc]
  simp

theorem foldl_findRequiresStep_skip (pre post : List Str) (line : Str) (inBlock : Bool)
    (hstep : ∀ acc, findRequiresStep (acc, inBlock) line = (acc, inBlock))
    (hpre : (pre.foldl findRequiresStep ([], false)).2 = inBlock) :
    (pre ++ line :: post).foldl findRequiresStep ([], false) =
      (pre ++ post).foldl findRequiresStep ([], false) := by
  rw [List.foldl_append, List.foldl_append, List.foldl_cons]
  cases hst : pre.foldl findRequiresStep ([], false) with
  | mk acc st =>
    rw [hst] at hpre
    simp only at hpre
    subst hpre
    rw [hstep]

/-! ## The second run of the rewriter -/

theorem replLine_eq (r : replacement) :
    replLine r =
      "replace".toList ++ ' ' :: (r.module ++ ' ' :: ('=' :: '>' :: ' ' :: r.relDir)) := by
  simp [replLine]

theorem dropWhile_isSpace_token (s rest : Str) (hs : isToken s = true) :
    (s ++ rest).dropWhile isSpace = s ++ rest := by
  have hs' := (isToken_iff s).mp hs
  cases s with
  | nil => exact absurd rfl hs'.1
  | cons a as =>
    have ha : isSpace a = false := by
      have := hs'.2 a (by simp)
      simpa [isNonSpace] using this
    simp [List.dropWhile, ha]

theorem replaceTail_arrow (d : Str) (hd : isToken d = true) :
    replaceTail (' ' :: '=' :: '>' :: ' ' :: d) = true := by
  have h1 : (' ' :: '=' :: '>' :: ' ' :: d).dropWhile isSpace = "=>".toList ++ ' ' :: d := by
    simp [List.dropWhile, isSpace]
  have h2 : (' ' :: d).dropWhile isSpace = d := by
    have := dropWhile_isSpace_token d [] hd
    rw [List.append_nil] at this
    rw [List.dropWhile_cons]
    simpa [isSpace] using this
  unfold replaceTail
  rw [h1, stripPrefix_append]
  simp only [h2]
  exact hd

theorem replaceCapture_token (m d : Str) (hm : isToken m = true) (hd : isToken d = true) :
    replaceCapture (m ++ ' ' :: ('=' :: '>' :: ' ' :: d)) m.length = some m := by
  have hm' := (isToken_iff m).mp hm
  cases hlen : m.length with
  | zero => exact absurd (List.length_eq_zero.mp hlen) hm'.1
  | succ k =>
    unfold replaceCapture
    rw [← hlen, List.drop_left, List.take_left, replaceTail_arrow d hd]
    rfl

/-- The pattern `replaceRE` recognises the directive line of a directive whose identifier
and path are tokens, and captures the identifier. -/
theorem replaceRE_replLine (r : replacement) (hm : isToken r.module = true)
    (hd : isToken r.relDir = true) : replaceRE (replLine r) = some r.module := by
  have hm' := (isToken_iff r.module).mp hm
  have hdrop : (' ' :: (r.module ++ ' ' :: ('=' :: '>' :: ' ' :: r.relDir))).dropWhile isSpace
      = r.module ++ ' ' :: ('=' :: '>' :: ' ' :: r.relDir) := by
    have hsp : isSpace ' ' = true := by decide
    rw [List.dropWhile_cons, if_pos hsp]
    exact dropWhile_isSpace_token r.module _ hm
  have htake : ((' ' :: (r.module ++ ' ' :: ('=' :: '>' :: ' ' :: r.relDir))).takeWhile
      isSpace).isEmpty = false := by
    rw [List.takeWhile_cons]
    simp [isSpace]
  unfold replaceRE
  rw [replLine_eq, stripPrefix_append]
  simp only [htake, hdrop, takeWhile_token_blank r.module _ hm'.2, Bool.false_eq_true, if_false]
  exact replaceCapture_token r.module r.relDir hm hd

theorem goVersionRE_replLine (r : replacement) : goVersionRE (replLine r) = false := by
  rw [replLine_eq]
  rfl

theorem newline_not_mem_token (s : Str) (hs : isToken s = true) : '\n' ∉ s := by
  intro h
  have := ((isToken_iff s).mp hs).2 _ h
  revert this
  decide

theorem mem_splitNL_findNewContent_replLine (c : Str) (p : List replacement) (r : replacement)
    (hr : r ∈ newRepls c p) (hnl : '\n' ∉ replLine r)
    (hgo : ∃ l ∈ splitNL c, goVersionRE l = true) :
    replLine r ∈ splitNL (findNewContent c p) := by
  obtain ⟨l, hl, hgl⟩ := hgo
  rw [splitNL_findNewContent, List.mem_flatMap]
  refine ⟨replLine r, ?_, ?_⟩
  · rw [specLines, List.mem_flatMap]
    refine ⟨l, hl, ?_⟩
    rw [hgl, if_pos rfl, insertedBlock]
    exact List.mem_cons_of_mem _ (List.mem_cons_of_mem _ (List.mem_map.mpr ⟨r, hr, rfl⟩))
  · rw [splitNL, splitSep_of_not_mem '\n' _ hnl]
    simp

theorem filter_blank_flatMap (xs : List Str) :
    (xs.flatMap (fun l => if goVersionRE l then l :: [[]].flatMap splitNL else [l])).filter
        (fun l => !l.isEmpty) =
      xs.filter (fun l => !l.isEmpty) := by
  have h0 : ([[]] : List Str).flatMap splitNL = [[]] := by decide
  rw [h0]
  induction xs with
  | nil => rfl
  | cons x xs ih =>
    rw [List.flatMap_cons, List.filter_append, ih]
    cases hx : goVersionRE x <;> cases hx' : x.isEmpty <;>
      simp [List.filter_cons, hx']

/-! ## The records of `searchDir` -/

theorem appendModule_eq (modDir : Str) (lines : List Str) (gm : List goModule) :
    appendModule modDir lines gm =
      gm ++ (match lines.findSome? moduleRE with
        | some moduleName => [⟨moduleName, modDir⟩]
        | none => []) := by
  induction lines with
  | nil => simp [appendModule]
  | cons l lines ih =>
    rw [appendModule, List.findSome?_cons]
    cases hl : moduleRE l with
    | some n => rfl
    | none => exact ih

theorem joinSep_append_singleton (sep : Char) (ls : List Str) (l : Str) (hne : ls ≠ []) :
    joinSep sep (ls ++ [l]) = joinSep sep ls ++ sep :: l := by
  induction ls with
  | nil => exact absurd rfl hne
  | cons x xs ih =>
    cases xs with
    | nil => rfl
    | cons y ys =>
      have := ih (by simp)
      rw [List.cons_append, List.cons_append, joinSep_cons_cons, ← List.cons_append, this,
        joinSep_cons_cons]
      simp

theorem isPlainName_iff (n : Str) :
    isPlainName n = true ↔ n ≠ [] ∧ '/' ∉ n ∧ n ≠ ['.'] ∧ n ≠ ['.', '.'] := by
  cases n with
  | nil => simp [isPlainName]
  | cons a as =>
    simp only [isPlainName, List.isEmpty_cons, Bool.not_false, Bool.true_and, Bool.and_eq_true,
      Bool.not_eq_true', List.contains_eq_any_beq, List.any_eq_false, beq_iff_eq,
      decide_eq_false_iff_not, ne_eq, not_false_eq_true, true_and, and_assoc]
    constructor
    · rintro ⟨h1, h2, h3⟩
      exact ⟨List.cons_ne_nil a as, fun hm => h1 _ hm rfl, h2, h3⟩
    · rintro ⟨-, h1, h2, h3⟩
      exact ⟨fun x hx hxe => h1 (hxe ▸ hx), h2, h3⟩

theorem foldl_cleanStep_plain (cs A : List Str) (n : Nat)
    (h : ∀ c ∈ cs, isPlainName c = true) :
    cs.foldl (cleanStep false) (A, n) = (A ++ cs, n) := by
  induction cs generalizing A with
  | nil => simp
  | cons c cs ih =>
    have hc := (isPlainName_iff c).mp (h c (by simp))
    have hstep : cleanStep false (A, n) c = (A ++ [c], n) := by
      have h1 : ¬ (c = [] ∨ c = ['.']) := by
        rintro (h1 | h1)
        · exact hc.1 h1
        · exact hc.2.2.1 h1
      simp only [cleanStep, if_neg h1, if_neg hc.2.2.2]
    rw [List.foldl_cons, hstep, ih _ (fun x hx => h x (by simp [hx]))]
    simp

theorem pathClean_parents_plain (k : Nat) (cs : List Str)
    (h : ∀ c ∈ cs, isPlainName c = true) :
    pathClean (joinSep '/' (List.replicate (k + 1) "..".toList ++ cs)) =
      joinSep '/' (List.replicate (k + 1) "..".toList ++ cs) := by
  have hL : List.replicate (k + 1) "..".toList ++ cs ≠ [] := by simp [List.replicate_succ]
  have hhead : (joinSep '/' (List.replicate (k + 1) "..".toList ++ cs)).head? = some '.' := by
    rw [List.replicate_succ, List.cons_append]
    cases hr : List.replicate k "..".toList ++ cs with
    | nil => rfl
    | cons l ls => rfl
  have hne : joinSep '/' (List.replicate (k + 1) "..".toList ++ cs) ≠ [] := by
    intro hnil
    rw [hnil] at hhead
    exact Option.noConfusion hhead
  have hsplit : splitSep '/' (joinSep '/' (List.replicate (k + 1) "..".toList ++ cs)) =
      List.replicate (k + 1) "..".toList ++ cs := by
    apply splitSep_joinSep _ _ hL
    intro l hl
    rcases List.mem_append.mp hl with hl | hl
    · rw [(List.eq_replicate_iff.mp rfl).2 l hl]
      decide
    · exact ((isPlainName_iff l).mp (h l hl)).2.1
  have hroot : decide ((joinSep '/' (List.replicate (k + 1) "..".toList ++ cs)).head? =
      some '/') = false := by
    rw [hhead]
    decide
  have hfold := foldl_cleanStep_parents (k + 1) 0
  rw [Nat.zero_add, show (List.replicate 0 "..".toList, 0) = (([] : List Str), 0) from rfl]
    at hfold
  unfold pathClean
  rw [if_neg hne, hsplit, hroot]
  simp only [Bool.false_eq_true, if_false]
  rw [List.foldl_append, hfold, foldl_cleanStep_plain cs _ _ h, if_neg hL]

theorem pathJoin_parents_plain (k : Nat) (cs : List Str) (name : Str)
    (h : ∀ c ∈ cs, isPlainName c = true) (hname : isPlainName name = true) :
    pathJoin [joinSep '/' (List.replicate (k + 1) "..".toList ++ cs), name] =
      joinSep '/' (List.replicate (k + 1) "..".toList ++ cs) ++ '/' :: name := by
  have hL : List.replicate (k + 1) "..".toList ++ cs ≠ [] := by simp [List.replicate_succ]
  have hA : (joinSep '/' (List.replicate (k + 1) "..".toList ++ cs)).isEmpty = false := by
    rw [List.replicate_succ, List.cons_append]
    cases hr : List.replicate k "..".toList ++ cs with
    | nil => rfl
    | cons l ls => rfl
  have hn : name.isEmpty = false := by
    have := ((isPlainName_iff name).mp hname).1
    cases name with
    | nil => exact absurd rfl this
    | cons a as => rfl
  have hjoin := joinSep_append_singleton '/' _ name hL
  have hclean := pathClean_parents_plain k (cs ++ [name]) (by
    intro c hc
    rcases List.mem_append.mp hc with hc | hc
    · exact h c hc
    · rw [List.mem_singleton.mp hc]
      exact hname)
  rw [← List.append_assoc, hjoin] at hclean
  unfold pathJoin
  simp only [List.all_cons, List.all_nil, hA, hn, Bool.and_self, Bool.false_eq_true, if_false,
    List.filter_cons, Bool.not_false, if_true, List.filter_nil]
  exact hclean

/-- The paths that `searchDir` builds in a directory of parent steps for an entry with a
plain name. -/
theorem pathJoin_child (k : Nat) (name : Str) (hname : isPlainName name = true) :
    pathJoin [parentSteps (k + 1), name] = parentSteps (k + 1) ++ '/' :: name ∧
      pathJoin [parentSteps (k + 1) ++ '/' :: name, "go.mod".toList] =
        parentSteps (k + 1) ++ '/' :: name ++ "/go.mod".toList := by
  have h1 := pathJoin_parents_plain k [] name (by simp) hname
  rw [List.append_nil] at h1
  have hL : List.replicate (k + 1) "..".toList ≠ [] := by simp [List.replicate_succ]
  have h2 := pathJoin_parents_plain k [name] "go.mod".toList
    (by intro c hc; rw [List.mem_singleton.mp hc]; exact hname) (by decide)
  rw [joinSep_append_singleton '/' _ name hL] at h2
  exact ⟨h1, h2⟩

theorem searchFiles_fst (fs : FS) (dir : Str) (files : List FileInfo) (gm : List goModule)
    (hpath : ∀ f ∈ files, pathJoin [dir, f.Name] = dir ++ '/' :: f.Name ∧
      pathJoin [dir ++ '/' :: f.Name, "go.mod".toList] = childManifest dir f) :
    (searchFiles fs dir files gm).1 =
      gm ++ (files.takeWhile (childReadable fs dir)).flatMap (childRecord fs dir) := by
  induction files generalizing gm with
  | nil => simp [searchFiles]
  | cons f files ih =>
    have hf := hpath f (by simp)
    have ih' := fun gm' => ih gm' (fun x hx => hpath x (by simp [hx]))
    unfold searchFiles
    simp only [hf.1, hf.2]
    cases hd : f.IsDir with
    | false =>
      simp only [Bool.not_false, if_true]
      rw [ih', List.takeWhile_cons]
      simp [childReadable, childRecord, hd]
    | true =>
      simp only [Bool.not_true, Bool.false_eq_true, if_false]
      cases he : fs.FileExists (childManifest dir f) with
      | false =>
        simp only [Bool.not_false, if_true]
        rw [ih', List.takeWhile_cons]
        simp [childReadable, childRecord, hd, he]
      | true =>
        simp only [Bool.not_true, Bool.false_eq_true, if_false]
        cases hr : fs.ReadFile (childManifest dir f) with
        | error err =>
          rw [List.takeWhile_cons]
          simp [childReadable, hd, he, hr, Except.isOk, Except.toBool]
        | ok b =>
          simp only
          rw [ih', appendModule_eq, List.takeWhile_cons]
          simp only [childReadable, hd, he, hr, Except.isOk, Except.toBool, Bool.not_true,
            Bool.and_false, Bool.not_false, if_true, List.flatMap_cons, childRecord,
            Bool.and_self]
          rw [List.append_assoc]

/-! ## The claims -/

/-- C1: `findNewContent` returns the newline-join of the line sequence made of every line
of `c` in order, each line matching the version-declaration pattern being followed by one
empty line and one line `replace m => d` per planned directive, in plan order, whose
identifier no existing `replace` line of `c` captures. -/
theorem findNewContent_eq_join_specLines (c : Str) (p : List replacement) :
    findNewContent c p =
      joinNL ((splitNL c).flatMap (fun l =>
        if goVersionRE l then
          l :: [] :: ((p.filter (fun r =>
            decide (r.module ∉ (splitNL c).filterMap replaceRE))).map
              (fun r => "replace ".toList ++ r.module ++ " => ".toList ++ r.relDir))
        else [l])) := by
  rw [findNewContent, newContentLines_eq]
  rfl

/-- C2, counterexample: on the manifest `go 1.17` and the plan `a => ../a` the second
application gives a text different from the first. -/
theorem findNewContent_twice_ne :
    findNewContent (findNewContent "go 1.17".toList [⟨"a".toList, "../a".toList⟩])
        [⟨"a".toList, "../a".toList⟩]
      ≠ findNewContent "go 1.17".toList [⟨"a".toList, "../a".toList⟩] := by
  decide

/-- C2, amended: applying `findNewContent` twice with the same plan gives the output of the
first application exactly when no line of `c` matches the version-declaration pattern. -/
theorem findNewContent_twice_iff (c : Str) (p : List replacement) :
    findNewContent (findNewContent c p) p = findNewContent c p ↔
      ∀ l ∈ splitNL c, goVersionRE l = false := by
  rw [findNewContent_eq_self_iff]
  constructor
  · intro h l hl
    exact h l (mem_splitNL_findNewContent c p l hl)
  · intro h
    rw [findNewContent_of_no_goVersion c p h]
    exact h

/-- C3, counterexample: the plan names `a` twice, the manifest `go 1.17` has no `replace`
line, and the output gains two lines that `replaceRE` captures as `a`. -/
theorem findNewContent_duplicate_directives :
    findNewContent "go 1.17".toList
        [⟨"a".toList, "../a".toList⟩, ⟨"a".toList, "../../a".toList⟩] =
        "go 1.17\n\nreplace a => ../a\nreplace a => ../../a".toList ∧
      (splitNL (findNewContent "go 1.17".toList
        [⟨"a".toList, "../a".toList⟩, ⟨"a".toList, "../../a".toList⟩])).countP
          (fun l => decide (replaceRE l = some "a".toList)) = 2 ∧
      (splitNL "go 1.17".toList).countP
          (fun l => decide (replaceRE l = some "a".toList)) = 0 := by
  decide

/-- C3, amended: the slice built by `findNewContent` is the lines of `c` with, after each
line matching the version-declaration pattern, one empty line and the directive lines of
the directives `newRepls c p`; among these directives an identifier `m` occurs as often as
in the plan when no existing `replace` line of `c` captures `m`, and not at all when one
does. -/
theorem findNewContent_directive_count (c : Str) (p : List replacement) (m : Str) :
    newContentLines c p =
        (splitNL c).flatMap (fun l =>
          if goVersionRE l then l :: [] :: (newRepls c p).map replLine else [l]) ∧
      (newRepls c p).countP (fun r => decide (r.module = m)) =
        if m ∈ existingRepls c then 0 else p.countP (fun r => decide (r.module = m)) := by
  refine ⟨newContentLines_eq c p, ?_⟩
  rw [existingRepls_eq]
  exact countP_newRepls c p m

/-- C4, counterexample: with two version-declaration lines the output has two inserted
blocks, and no single block accounts for the difference. -/
theorem findNewContent_two_blocks :
    ¬ ∃ pre block post : List Str,
      splitNL "go 1.17\ngo 1.18".toList = pre ++ post ∧
      splitNL (findNewContent "go 1.17\ngo 1.18".toList [⟨"a".toList, "../a".toList⟩]) =
        pre ++ block ++ post ∧
      (block ≠ [] → ∃ l, pre.getLast? = some l ∧ goVersionRE l = true) := by
  have hc : splitNL "go 1.17\ngo 1.18".toList = ["go 1.17".toList, "go 1.18".toList] := by
    decide
  have ho : splitNL (findNewContent "go 1.17\ngo 1.18".toList [⟨"a".toList, "../a".toList⟩]) =
      ["go 1.17".toList, [], "replace a => ../a".toList,
        "go 1.18".toList, [], "replace a => ../a".toList] := by
    decide
  rintro ⟨pre, block, post, h1, h2, -⟩
  rw [hc] at h1
  rw [ho] at h2
  have hpost : post = [] := by
    by_contra hne
    have e1 := congrArg List.getLast? h1
    have e2 := congrArg List.getLast? h2
    rw [List.getLast?_append_of_ne_nil _ hne] at e1 e2
    rw [← e1] at e2
    revert e2
    decide
  subst hpost
  rw [List.append_nil] at h1 h2
  subst h1
  revert h2
  simp

/-- C4, amended: when at most one line of `c` matches the version-declaration pattern, the
lines of the output are the lines of `c` with one contiguous block inserted, and the block
is non-empty only if the line before it matches the pattern. -/
theorem findNewContent_one_block (c : Str) (p : List replacement)
    (h : (splitNL c).countP goVersionRE ≤ 1) :
    ∃ pre block post : List Str,
      splitNL c = pre ++ post ∧
      splitNL (findNewContent c p) = pre ++ block ++ post ∧
      (block ≠ [] → ∃ l, pre.getLast? = some l ∧ goVersionRE l = true) := by
  rw [splitNL_findNewContent_lines]
  exact one_block_of_countP_le_one _ _ h

/-- C4, witness: the manifest `go 1.17` with the plan `a => ../a`. -/
theorem findNewContent_one_block_witness :
    (splitNL "go 1.17".toList).countP goVersionRE ≤ 1 ∧
      ∃ pre block post : List Str,
        splitNL "go 1.17".toList = pre ++ post ∧
        splitNL (findNewContent "go 1.17".toList [⟨"a".toList, "../a".toList⟩]) =
          pre ++ block ++ post ∧
        (block ≠ [] → ∃ l, pre.getLast? = some l ∧ goVersionRE l = true) :=
  ⟨by decide, findNewContent_one_block _ _ (by decide)⟩

/-- C5, counterexample: a planned path holding a newline puts a line into the output that
is neither a line of the manifest, nor empty, nor a directive line of the plan. -/
theorem findNewContent_not_insertedOnly :
    findNewContent "go 1.17".toList [⟨"a".toList, "x\ny".toList⟩] =
        "go 1.17\n\nreplace a => x\ny".toList ∧
      insertedOnly (isPlanLine [⟨"a".toList, "x\ny".toList⟩]) (splitNL "go 1.17".toList)
        (splitNL (findNewContent "go 1.17".toList [⟨"a".toList, "x\ny".toList⟩])) = false := by
  decide

/-- C5, amended: for a plan whose identifiers and paths hold no newline, the lines of `c`
occur in the lines of the output unchanged and in their order, and every other line of the
output is empty or the directive line of a planned directive. -/
theorem findNewContent_insertedOnly (c : Str) (p : List replacement)
    (h : ∀ r ∈ p, '\n' ∉ r.module ∧ '\n' ∉ r.relDir) :
    insertedOnly (isPlanLine p) (splitNL c) (splitNL (findNewContent c p)) = true := by
  have hsplit : (insertedBlock c p).flatMap splitNL = insertedBlock c p := by
    have hall : ∀ l ∈ insertedBlock c p, splitNL l = [l] := by
      intro l hl
      apply splitSep_of_not_mem
      rcases List.mem_cons.mp hl with hl | hl
      · simp [hl]
      · obtain ⟨r, hr, rfl⟩ := List.mem_map.mp hl
        have hrp : r ∈ p := List.mem_of_mem_filter hr
        exact newline_not_mem_replLine r (h r hrp).1 (h r hrp).2
    generalize insertedBlock c p = B at hall
    induction B with
    | nil => rfl
    | cons b B ih =>
      rw [List.flatMap_cons, hall b (by simp), ih (fun l hl => hall l (by simp [hl]))]
      rfl
  rw [splitNL_findNewContent_lines, hsplit]
  apply insertedOnly_flatMap
  intro b hb
  rcases List.mem_cons.mp hb with hb | hb
  · simp [isPlanLine, hb]
  · obtain ⟨r, hr, rfl⟩ := List.mem_map.mp hb
    have hrp : r ∈ p := List.mem_of_mem_filter hr
    simp only [isPlanLine, Bool.or_eq_true, List.contains_iff_exists_mem_beq]
    exact Or.inr ⟨replLine r, List.mem_map.mpr ⟨r, hrp, rfl⟩, by simp⟩

/-- C5, witness: the manifest `go 1.17` with the plan `a => ../a`. -/
theorem findNewContent_insertedOnly_witness :
    (∀ r ∈ [(⟨"a".toList, "../a".toList⟩ : replacement)],
        '\n' ∉ r.module ∧ '\n' ∉ r.relDir) ∧
      insertedOnly (isPlanLine [⟨"a".toList, "../a".toList⟩]) (splitNL "go 1.17".toList)
        (splitNL (findNewContent "go 1.17".toList [⟨"a".toList, "../a".toList⟩])) = true :=
  ⟨by decide, findNewContent_insertedOnly _ _ (by decide)⟩

/-- C6, counterexample: with the empty plan the manifest `go 1.17` is not reproduced. -/
theorem findNewContent_nil_ne :
    findNewContent "go 1.17".toList [] ≠ "go 1.17".toList := by
  decide

/-- C6, amended: with an empty directive list `findNewContent` returns `c` with one empty
line inserted after every line matching the version-declaration pattern, which is `c`
itself exactly when no line matches. -/
theorem findNewContent_nil (c : Str) :
    findNewContent c [] =
        joinNL ((splitNL c).flatMap (fun l => if goVersionRE l then [l, []] else [l])) ∧
      (findNewContent c [] = c ↔ ∀ l ∈ splitNL c, goVersionRE l = false) := by
  refine ⟨?_, findNewContent_eq_self_iff c []⟩
  rw [findNewContent_eq, specLines_of_newRepls_nil c [] rfl]
  rfl

/-- C7, counterexample: the manifest holds `replace github.com/example/a => ../a`, the plan
proposes a directive for the same identifier, and the output differs from the input. -/
theorem findNewContent_existing_ne :
    (∀ r ∈ [(⟨"github.com/example/a".toList, "../a".toList⟩ : replacement)],
        r.module ∈ (splitNL
          "go 1.17\nreplace github.com/example/a => ../a".toList).filterMap replaceRE) ∧
      findNewContent "go 1.17\nreplace github.com/example/a => ../a".toList
          [⟨"github.com/example/a".toList, "../a".toList⟩]
        ≠ "go 1.17\nreplace github.com/example/a => ../a".toList := by
  decide

/-- C7, amended: when every planned identifier is captured by an existing `replace` line of
`c`, no directive line is inserted: the output is `c` with one empty line after every line
matching the version-declaration pattern, and it is `c` exactly when no line matches. -/
theorem findNewContent_all_existing (c : Str) (p : List replacement)
    (h : ∀ r ∈ p, r.module ∈ (splitNL c).filterMap replaceRE) :
    findNewContent c p =
        joinNL ((splitNL c).flatMap (fun l => if goVersionRE l then [l, []] else [l])) ∧
      (findNewContent c p = c ↔ ∀ l ∈ splitNL c, goVersionRE l = false) := by
  refine ⟨?_, findNewContent_eq_self_iff c p⟩
  rw [findNewContent_eq, specLines_of_newRepls_nil c p (newRepls_eq_nil_of_existing c p h)]
  rfl

/-- C7, witness: the manifest and the plan of the counterexample. -/
theorem findNewContent_all_existing_witness :
    findNewContent "go 1.17\nreplace github.com/example/a => ../a".toList
          [⟨"github.com/example/a".toList, "../a".toList⟩] =
        joinNL ((splitNL "go 1.17\nreplace github.com/example/a => ../a".toList).flatMap
          (fun l => if goVersionRE l then [l, []] else [l])) ∧
      (findNewContent "go 1.17\nreplace github.com/example/a => ../a".toList
          [⟨"github.com/example/a".toList, "../a".toList⟩] =
          "go 1.17\nreplace github.com/example/a => ../a".toList ↔
        ∀ l ∈ splitNL "go 1.17\nreplace github.com/example/a => ../a".toList,
          goVersionRE l = false) :=
  findNewContent_all_existing _ _ (by decide)

/-- C8: on the manifest made of any sequence of well-formed single-line requirements,
well-formed blocks and lines that no extractor pattern matches, `findRequires` returns the
identifiers of all the single-line requirements and block entries, in file order and with
duplicates kept. -/
theorem findRequires_manifestText (items : List Item) (h : ∀ it ∈ items, it.wf = true) :
    findRequires (manifestText items) = items.flatMap Item.ids := by
  unfold findRequires manifestText
  cases items with
  | nil => decide
  | cons it items =>
    have hne : (it :: items).flatMap Item.lines ≠ [] := by
      rw [List.flatMap_cons]
      cases it <;> simp [Item.lines]
    have hnl : ∀ l ∈ (it :: items).flatMap Item.lines, '\n' ∉ l := by
      intro l hl
      obtain ⟨i, hi, hli⟩ := List.mem_flatMap.mp hl
      exact newline_not_mem_item_lines i (h i hi) l hli
    have hsplit : splitNL (joinNL ((it :: items).flatMap Item.lines)) =
        (it :: items).flatMap Item.lines := splitSep_joinSep '\n' _ hne hnl
    rw [hsplit, foldl_findRequiresStep_items _ _ h]
    simp

/-- C8, witness: two single-line requirements of the same module around a block, with
other lines between and inside. -/
theorem findRequires_manifestText_witness :
    (∀ it ∈ [Item.other "module example.com/m".toList, Item.other "go 1.17".toList,
        Item.single "example.com/a".toList "v1.0.0".toList,
        Item.block [BlockLine.entry "\t".toList "example.com/b".toList "v0.2.0".toList,
          BlockLine.other [],
          BlockLine.entry "  ".toList "example.com/c".toList "v0.3.0".toList],
        Item.other [], Item.single "example.com/a".toList "v1.0.0".toList],
        it.wf = true) ∧
      findRequires (manifestText [Item.other "module example.com/m".toList,
        Item.other "go 1.17".toList,
        Item.single "example.com/a".toList "v1.0.0".toList,
        Item.block [BlockLine.entry "\t".toList "example.com/b".toList "v0.2.0".toList,
          BlockLine.other [],
          BlockLine.entry "  ".toList "example.com/c".toList "v0.3.0".toList],
        Item.other [], Item.single "example.com/a".toList "v1.0.0".toList]) =
      ["example.com/a".toList, "example.com/b".toList, "example.com/c".toList,
        "example.com/a".toList] :=
  ⟨by decide, findRequires_manifestText _ (by decide)⟩

/-- C9: the plan built by the loop of `realMain` is the reference plan, the concatenation
over the requirements in order of the directives of the discovered records of that name in
discovery order; nothing is deduplicated, so its length is the sum over the requirements of
the number of records of that name. -/
theorem realMainRepls_spec (requires : List Str) (goModules : List goModule) :
    realMainRepls requires goModules =
        requires.flatMap (fun req =>
          (goModules.filter (fun goMod => decide (goMod.name = req))).map
            (fun goMod => ⟨goMod.name, goMod.relDir⟩)) ∧
      (realMainRepls requires goModules).length =
        (requires.map (fun req =>
          goModules.countP (fun goMod => decide (goMod.name = req)))).sum := by
  rw [realMainRepls_eq_specPlan]
  exact ⟨rfl, length_specPlan requires goModules⟩

/-- C10, counterexample: with depth 2 and an unreadable parent directory `findModules`
makes one pass, not two. -/
theorem findModules_unreadable_one_pass :
    findModules unreadableFS 2 ".".toList =
        (["..".toList], .error "error listing dir ..: permission denied".toList) ∧
      ((findModules unreadableFS 2 ".".toList).1.length : Int) ≠ max 2 0 := by
  decide

/-- C10, amended: `findModules` makes the passes `0, ..., k - 1` for some `k` up to
`max(depth, 0)`, pass `i` listing the directory of `i + 1` parent steps; every pass before
the last one made succeeded; when `findModules` returns records, `k` is `max(depth, 0)` and
every pass succeeded, and when it returns an error, pass `k - 1` is the failing one. With a
depth of at most 0 there is no pass, no module and no directive. -/
theorem findModules_passes (fs : FS) (depth : Int) (dir : Str) :
    ∃ k : Nat, k ≤ depth.toNat ∧
      (findModules fs depth dir).1 = (List.range k).map (fun i => parentSteps (i + 1)) ∧
      (∀ i, i + 1 < k → passFails fs i = false) ∧
      (match (findModules fs depth dir).2 with
        | .ok _ => k = depth.toNat ∧ ∀ i, i < k → passFails fs i = false
        | .error _ => 0 < k ∧ passFails fs (k - 1) = true) ∧
      (depth ≤ 0 → findModules fs depth dir = ([], .ok []) ∧
        ∀ requires, realMainRepls requires [] = []) := by
  obtain ⟨done, rest, h1, h2, h3⟩ :=
    findModulesLoop_passes fs (List.range depth.toNat) ⟨[], []⟩
  obtain ⟨hdone, hlen⟩ := range_eq_append _ _ _ h1
  have hmap : done.map scanDir = (List.range done.length).map (fun i => parentSteps (i + 1)) := by
    conv_lhs => rw [hdone]
    exact List.map_congr_left (fun i _ => scanDir_eq_parentSteps i)
  have hmem : ∀ i, i ∈ done ↔ i < done.length := by
    intro i
    conv_lhs => rw [hdone]
    exact List.mem_range
  refine ⟨done.length, hlen, ?_, ?_, ?_, ?_⟩
  · rw [List.nil_append] at h2
    rw [← hmap, ← h2]
    unfold findModules
    split <;> rename_i hloop <;> rw [hloop]
  · intro i hi
    rcases h3 with ⟨-, -, h5⟩ | ⟨-, init, last, h4, h5, -⟩
    · exact h5 i ((hmem i).mpr (by omega))
    · apply h5
      have hi' : i ∈ init ++ [last] := h4 ▸ (hmem i).mpr (by omega)
      rcases List.mem_append.mp hi' with hi' | hi'
      · exact hi'
      · have hlast : i = last := by simpa using hi'
        have hdl : done.length = init.length + 1 := by rw [h4]; simp
        have hlast' : last = init.length := by
          have hget : done[init.length]? = some last := by rw [h4]; simp
          have hget' : (List.range done.length)[init.length]? = some init.length := by
            rw [List.getElem?_range]
            omega
          rw [← hdone] at hget'
          rw [hget] at hget'
          exact Option.some.inj hget'
        omega
  · unfold findModules
    rcases h3 with ⟨h3, h4, h5⟩ | ⟨h3, init, last, h4, h5, h6⟩
    · cases hloop : findModulesLoop fs (List.range depth.toNat) ⟨[], []⟩ with
      | mk s err =>
        rw [hloop] at h3
        simp only at h3
        subst h3
        simp only
        subst h4
        rw [List.append_nil] at h1
        refine ⟨by rw [← h1, List.length_range], fun i hi => h5 i ((hmem i).mpr hi)⟩
    · cases hloop : findModulesLoop fs (List.range depth.toNat) ⟨[], []⟩ with
      | mk s err =>
        rw [hloop] at h3
        simp only at h3
        cases err with
        | none => exact absurd rfl h3
        | some e =>
          simp only
          have hdl : done.length = init.length + 1 := by rw [h4]; simp
          have hlast' : last = init.length := by
            have hget : done[init.length]? = some last := by rw [h4]; simp
            have hget' : (List.range done.length)[init.length]? = some init.length := by
              rw [List.getElem?_range]
              omega
            rw [← hdone] at hget'
            rw [hget] at hget'
            exact Option.some.inj hget'
          refine ⟨by omega, ?_⟩
          rw [hdl, Nat.add_sub_cancel, ← hlast']
          exact h6
  · intro hd
    have h0 : depth.toNat = 0 := by omega
    refine ⟨?_, fun requires => ?_⟩
    · unfold findModules
      rw [h0]
      rfl
    · unfold realMainRepls
      induction requires with
      | nil => rfl
      | cons r rs ih => simp

/-- C11: with the dry-run flag set, `realMain` leaves the file system as it was and
performs no write and runs no command, whatever the plan; and when the plan is not empty
the reconstructed text is printed and `realMain` returns no error. -/
theorem realMain_dry_run_no_effect (dir : Str) (depth : Int) (w : World) :
    (realMain dir depth true w).1.fs = w.fs ∧
      (∃ evs, (realMain dir depth true w).1.trace = w.trace ++ evs ∧
        ∀ e ∈ evs, e.isEffect = false) ∧
      ∀ b ms, w.fs.FileExists (manifestPath dir) = true →
        w.fs.ReadFile (manifestPath dir) = .ok b →
        (findModules w.fs depth dir).2 = .ok ms →
        realMainRepls (findRequires b) ms ≠ [] →
        (realMain dir depth true w).2 = none ∧
          (realMain dir depth true w).1.trace =
            w.trace ++ scanTrace w.fs dir depth ++
              [Event.readFile (manifestPath dir),
                Event.print (findNewContent b (realMainRepls (findRequires b) ms))] := by
  refine ⟨?_, ?_, ?_⟩
  · cases hE : w.fs.FileExists (manifestPath dir) with
    | false => rw [realMain_no_manifest dir depth true w hE]
    | true =>
      cases hR : w.fs.ReadFile (manifestPath dir) with
      | error err => rw [realMain_read_error dir depth true w err hE hR]
      | ok b =>
        cases hM : (findModules w.fs depth dir).2 with
        | error err => rw [realMain_scan_error dir depth true w b err hE hR hM]
        | ok ms =>
          by_cases hP : realMainRepls (findRequires b) ms = []
          · rw [realMain_empty_plan dir depth true w b ms hE hR hM hP]
          · rw [realMain_dry_run dir depth w b ms hE hR hM hP]
  · cases hE : w.fs.FileExists (manifestPath dir) with
    | false =>
      rw [realMain_no_manifest dir depth true w hE]
      exact ⟨[], by simp, by simp⟩
    | true =>
      cases hR : w.fs.ReadFile (manifestPath dir) with
      | error err =>
        rw [realMain_read_error dir depth true w err hE hR]
        refine ⟨[Event.readFile (manifestPath dir)], rfl, ?_⟩
        intro e he
        rw [List.mem_singleton.mp he]
        rfl
      | ok b =>
        cases hM : (findModules w.fs depth dir).2 with
        | error err =>
          rw [realMain_scan_error dir depth true w b err hE hR hM]
          exact ⟨scanTrace w.fs dir depth, rfl, scanTrace_no_effect w.fs dir depth⟩
        | ok ms =>
          by_cases hP : realMainRepls (findRequires b) ms = []
          · rw [realMain_empty_plan dir depth true w b ms hE hR hM hP]
            exact ⟨scanTrace w.fs dir depth, rfl, scanTrace_no_effect w.fs dir depth⟩
          · rw [realMain_dry_run dir depth w b ms hE hR hM hP]
            refine ⟨_, List.append_assoc _ _ _, ?_⟩
            intro e he
            rcases List.mem_append.mp he with he | he
            · exact scanTrace_no_effect w.fs dir depth e he
            · simp only [List.mem_cons, List.mem_singleton, List.not_mem_nil, or_false] at he
              rcases he with rfl | rfl <;> rfl
  · intro b ms hE hR hM hP
    rw [realMain_dry_run dir depth w b ms hE hR hM hP]
    exact ⟨rfl, rfl⟩

/-- C11, witness: the dry run on `siblingWorld`, whose plan holds one directive. -/
theorem realMain_dry_run_witness :
    (realMain ".".toList 1 true siblingWorld).2 = none ∧
      (realMain ".".toList 1 true siblingWorld).1.trace =
        siblingWorld.trace ++ scanTrace siblingWorld.fs ".".toList 1 ++
          [Event.readFile (manifestPath ".".toList),
            Event.print (findNewContent
              "module github.com/example/m\n\ngo 1.17\n\nrequire github.com/example/a v1.0.0\n".toList
              (realMainRepls
                (findRequires
                  "module github.com/example/m\n\ngo 1.17\n\nrequire github.com/example/a v1.0.0\n".toList)
                [⟨"github.com/example/a".toList, "../a".toList⟩]))] :=
  (realMain_dry_run_no_effect ".".toList 1 siblingWorld).2.2 _ _
    (by decide) (by decide) (by decide) (by decide)

/-- C12: when no discovered module has the identifier of an extracted requirement, the plan
is empty and `realMain` returns no error in either mode, having only read the manifest once
and listed the scanned directories: `findNewContent` does not read the manifest again,
nothing is printed or written and no command is run. -/
theorem realMain_no_match (dir : Str) (depth : Int) (dryRun : Bool) (w : World)
    (b : Str) (ms : List goModule)
    (hE : w.fs.FileExists (manifestPath dir) = true)
    (hR : w.fs.ReadFile (manifestPath dir) = .ok b)
    (hM : (findModules w.fs depth dir).2 = .ok ms)
    (hno : ∀ req ∈ findRequires b, ∀ g ∈ ms, g.name ≠ req) :
    realMainRepls (findRequires b) ms = [] ∧
      realMain dir depth dryRun w =
        ({ w with trace := w.trace ++ scanTrace w.fs dir depth }, none) ∧
      (∀ e ∈ scanTrace w.fs dir depth, e.isEffect = false) ∧
      (scanTrace w.fs dir depth).count (Event.readFile (manifestPath dir)) = 1 ∧
      ∀ text, Event.print text ∉ scanTrace w.fs dir depth := by
  have hP := realMainRepls_eq_nil_of_no_match (findRequires b) ms hno
  refine ⟨hP, realMain_empty_plan dir depth dryRun w b ms hE hR hM hP,
    scanTrace_no_effect w.fs dir depth, count_readFile_scanTrace w.fs dir depth, ?_⟩
  intro text h
  rcases List.mem_cons.mp h with h | h
  · exact Event.noConfusion h
  · obtain ⟨d, _, hd⟩ := List.mem_map.mp h
    exact Event.noConfusion hd

/-- C12, witness: `strangerWorld` requires a module that the discovered sibling does not
declare. -/
theorem realMain_no_match_witness :
    realMainRepls
        (findRequires
          "module github.com/example/m\n\ngo 1.17\n\nrequire github.com/example/b v1.0.0\n".toList)
        [⟨"github.com/example/a".toList, "../a".toList⟩] = [] ∧
      realMain ".".toList 1 false strangerWorld =
        ({ strangerWorld with
            trace := strangerWorld.trace ++ scanTrace strangerWorld.fs ".".toList 1 }, none) ∧
      (∀ e ∈ scanTrace strangerWorld.fs ".".toList 1, e.isEffect = false) ∧
      (scanTrace strangerWorld.fs ".".toList 1).count
        (Event.readFile (manifestPath ".".toList)) = 1 ∧
      ∀ text, Event.print text ∉ scanTrace strangerWorld.fs ".".toList 1 :=
  realMain_no_match ".".toList 1 false strangerWorld _ _
    (by decide) (by decide) (by decide) (by decide)

/-- C13: without the dry-run flag and with a plan that is not empty, `realMain` writes the
reconstructed text to the manifest before it runs the command, and only runs the command
when the write succeeded; after a successful write the manifest holds the reconstructed
text in the final state, also when the command fails, in which case `realMain` returns the
error of the command. -/
theorem realMain_write_precedes_run (dir : Str) (depth : Int) (w : World)
    (b : Str) (ms : List goModule)
    (hE : w.fs.FileExists (manifestPath dir) = true)
    (hR : w.fs.ReadFile (manifestPath dir) = .ok b)
    (hM : (findModules w.fs depth dir).2 = .ok ms)
    (hP : realMainRepls (findRequires b) ms ≠ []) :
    (∀ err, w.WriteFileErr (manifestPath dir) = some err →
        (realMain dir depth false w).1.trace =
            w.trace ++ scanTrace w.fs dir depth ++
              [Event.readFile (manifestPath dir),
                Event.writeFile (manifestPath dir)
                  (findNewContent b (realMainRepls (findRequires b) ms))] ∧
          (realMain dir depth false w).2 = some err) ∧
      (w.WriteFileErr (manifestPath dir) = none →
        (realMain dir depth false w).1.trace =
            w.trace ++ scanTrace w.fs dir depth ++
              [Event.readFile (manifestPath dir),
                Event.writeFile (manifestPath dir)
                  (findNewContent b (realMainRepls (findRequires b) ms)),
                Event.run dir goModTidy] ∧
          (realMain dir depth false w).1.fs.ReadFile (manifestPath dir) =
            .ok (findNewContent b (realMainRepls (findRequires b) ms)) ∧
          ∀ err, w.RunErr dir goModTidy = some err →
            (realMain dir depth false w).2 =
              some ("error running go mod tidy: ".toList ++ err)) := by
  constructor
  · intro err hW
    rw [realMain_write_error dir depth w b err ms hE hR hM hP hW]
    exact ⟨rfl, rfl⟩
  · intro hW
    rw [realMain_written dir depth w b ms hE hR hM hP hW]
    refine ⟨rfl, ?_, ?_⟩
    · simp [FS.write]
    · intro err herr
      simp [herr]

/-- C13, witness: on `siblingWorld` the write succeeds and `go mod tidy` fails. -/
theorem realMain_write_precedes_run_witness :
    (realMain ".".toList 1 false siblingWorld).1.trace =
        [Event.readFile "go.mod".toList, Event.readDir "..".toList,
          Event.readFile "go.mod".toList,
          Event.writeFile "go.mod".toList
            "module github.com/example/m\n\ngo 1.17\n\nreplace github.com/example/a => ../a\n\nrequire github.com/example/a v1.0.0\n".toList,
          Event.run ".".toList goModTidy] ∧
      (realMain ".".toList 1 false siblingWorld).1.fs.ReadFile "go.mod".toList =
        .ok "module github.com/example/m\n\ngo 1.17\n\nreplace github.com/example/a => ../a\n\nrequire github.com/example/a v1.0.0\n".toList ∧
      ∀ err, siblingWorld.RunErr ".".toList goModTidy = some err →
        (realMain ".".toList 1 false siblingWorld).2 =
          some ("error running go mod tidy: ".toList ++ err) :=
  (realMain_write_precedes_run ".".toList 1 siblingWorld
    "module github.com/example/m\n\ngo 1.17\n\nrequire github.com/example/a v1.0.0\n".toList
    [⟨"github.com/example/a".toList, "../a".toList⟩]
    (by decide) (by decide) (by decide) (by decide)).2 (by decide)

/-- C14: when a scanned ancestor directory cannot be listed, or a child directory of one
holds a manifest that cannot be read, `findModules` returns an error and no record, and
`realMain`, once it has read its manifest, returns that error having written no file and
run no command. -/
theorem findModules_scan_failure (dir : Str) (depth : Int) (w : World) (i : Nat)
    (hi : i < depth.toNat)
    (hfail : (∃ err, w.fs.ReadDir (parentSteps (i + 1)) = .error err) ∨
      ∃ files f, w.fs.ReadDir (parentSteps (i + 1)) = .ok files ∧ f ∈ files ∧
        unreadableChild w.fs (parentSteps (i + 1)) f = true) :
    ∃ err, (findModules w.fs depth dir).2 = .error err ∧
      ∀ b dryRun, w.fs.FileExists (manifestPath dir) = true →
        w.fs.ReadFile (manifestPath dir) = .ok b →
        realMain dir depth dryRun w =
            ({ w with trace := w.trace ++ scanTrace w.fs dir depth }, some err) ∧
          ∀ e ∈ scanTrace w.fs dir depth, e.isEffect = false := by
  obtain ⟨err, herr⟩ :=
    findModules_error_of_passFails w.fs depth dir i hi (passFails_of_failure w.fs i hfail)
  refine ⟨err, herr, ?_⟩
  intro b dryRun hE hR
  exact ⟨realMain_scan_error dir depth dryRun w b err hE hR herr,
    scanTrace_no_effect w.fs dir depth⟩

/-- C14, witness: with depth 2 the second pass of `siblingWorld` cannot list `../..`,
after the first pass has found a module. -/
theorem findModules_scan_failure_witness :
    ∃ err, (findModules siblingWorld.fs 2 ".".toList).2 = .error err ∧
      ∀ b dryRun, siblingWorld.fs.FileExists (manifestPath ".".toList) = true →
        siblingWorld.fs.ReadFile (manifestPath ".".toList) = .ok b →
        realMain ".".toList 2 dryRun siblingWorld =
            ({ siblingWorld with
                trace := siblingWorld.trace ++ scanTrace siblingWorld.fs ".".toList 2 },
              some err) ∧
          ∀ e ∈ scanTrace siblingWorld.fs ".".toList 2, e.isEffect = false :=
  findModules_scan_failure ".".toList 2 siblingWorld 1 (by decide)
    (Or.inl ⟨"no such directory".toList, by decide⟩)

/-- C15: when no line of the manifest matches the single-line requirement pattern and no
line matches the block-start pattern, `findRequires` returns the empty sequence. -/
theorem findRequires_no_declaration (c : Str)
    (h : ∀ l ∈ splitNL c, singleRequireRE l = none ∧ requireStartRE l = false) :
    findRequires c = [] := by
  unfold findRequires
  rw [foldl_findRequiresStep_no_declaration _ h]

/-- C15, witness: a manifest with a module line, a version line and an indented line that
looks like a block entry, but no requirement declaration. -/
theorem findRequires_no_declaration_witness :
    (∀ l ∈ splitNL "module github.com/example/m\n\ngo 1.17\n\texample.com/a v1.0.0\n)\n".toList,
        singleRequireRE l = none ∧ requireStartRE l = false) ∧
      findRequires "module github.com/example/m\n\ngo 1.17\n\texample.com/a v1.0.0\n)\n".toList
        = [] :=
  ⟨by decide, findRequires_no_declaration _ (by decide)⟩

/-- C16: the result of `findModules` does not depend on its directory argument, and every
directory it lists is a path of parent steps `..`, `../..`, and so on. -/
theorem findModules_dir_irrelevant (fs : FS) (depth : Int) (dir1 dir2 : Str) :
    findModules fs depth dir1 = findModules fs depth dir2 ∧
      ∀ path ∈ (findModules fs depth dir1).1, ∃ i, path = parentSteps (i + 1) := by
  refine ⟨rfl, ?_⟩
  intro path hpath
  obtain ⟨done, rest, -, h2, -⟩ :=
    findModulesLoop_passes fs (List.range depth.toNat) ⟨[], []⟩
  rw [findModules_fst, h2, List.nil_append] at hpath
  obtain ⟨i, -, rfl⟩ := List.mem_map.mp hpath
  exact ⟨i, scanDir_eq_parentSteps i⟩

/-- C17: when no line of `c` matches the version-declaration pattern, `findNewContent`
returns `c` for every plan: nothing is inserted. -/
theorem findNewContent_no_version_line (c : Str) (p : List replacement)
    (h : ∀ l ∈ splitNL c, goVersionRE l = false) : findNewContent c p = c :=
  findNewContent_of_no_goVersion c p h

/-- C17, witness: a manifest without version line and a plan whose identifier has no
existing `replace` line. -/
theorem findNewContent_no_version_line_witness :
    (∀ l ∈ splitNL "module github.com/example/m\n\nrequire github.com/example/a v1.0.0\n".toList,
        goVersionRE l = false) ∧
      findNewContent "module github.com/example/m\n\nrequire github.com/example/a v1.0.0\n".toList
          [⟨"github.com/example/a".toList, "../a".toList⟩] =
        "module github.com/example/m\n\nrequire github.com/example/a v1.0.0\n".toList :=
  ⟨by decide, findNewContent_no_version_line _ _ (by decide)⟩

/-- C18: a requirement line with anything after the version token, such as a trailing
`// indirect`, matches nothing in either state: outside a block the single-line form, and
inside a block the indented form, add no identifier and leave the block state as it is, so
the identifiers of a manifest are those of its other lines. -/
theorem findRequires_trailing_text (indent id version t : Str) (c : Char)
    (hi : isIndent indent = true) (hid : isToken id = true) (hc : isSpace c = true) :
    (∀ acc, findRequiresStep (acc, false)
        ("require ".toList ++ id ++ ' ' :: (version ++ c :: t)) = (acc, false)) ∧
      (∀ acc, findRequiresStep (acc, true)
        (indent ++ id ++ ' ' :: (version ++ c :: t)) = (acc, true)) ∧
      (∀ m pre post,
        splitNL m = pre ++ ("require ".toList ++ id ++ ' ' :: (version ++ c :: t)) :: post →
        (pre.foldl findRequiresStep ([], false)).2 = false →
        findRequires m = ((pre ++ post).foldl findRequiresStep ([], false)).1) ∧
      (∀ m pre post,
        splitNL m = pre ++ (indent ++ id ++ ' ' :: (version ++ c :: t)) :: post →
        (pre.foldl findRequiresStep ([], false)).2 = true →
        findRequires m = ((pre ++ post).foldl findRequiresStep ([], false)).1) := by
  refine ⟨findRequiresStep_single_trailing id version t c hid hc,
    findRequiresStep_entry_trailing indent id version t c hi hid hc, ?_, ?_⟩
  · intro m pre post hm hpre
    rw [findRequires, hm, foldl_findRequiresStep_skip pre post _ false
      (findRequiresStep_single_trailing id version t c hid hc) hpre]
  · intro m pre post hm hpre
    rw [findRequires, hm, foldl_findRequiresStep_skip pre post _ true
      (findRequiresStep_entry_trailing indent id version t c hi hid hc) hpre]

/-- C18, witness: the lines `require example.com/a v1.0.0 // indirect` and
`<tab>example.com/a v1.0.0 // indirect`. -/
theorem findRequires_trailing_text_witness :
    (∀ acc, findRequiresStep (acc, false)
        ("require ".toList ++ "example.com/a".toList ++
          ' ' :: ("v1.0.0".toList ++ ' ' :: "// indirect".toList)) = (acc, false)) ∧
      (∀ acc, findRequiresStep (acc, true)
        ("\t".toList ++ "example.com/a".toList ++
          ' ' :: ("v1.0.0".toList ++ ' ' :: "// indirect".toList)) = (acc, true)) ∧
      findRequires
        "require (\n\texample.com/a v1.0.0 // indirect\n\texample.com/b v0.2.0\n)\nrequire example.com/c v1.0.0 // indirect".toList
        = ["example.com/b".toList] :=
  ⟨(findRequires_trailing_text "\t".toList "example.com/a".toList "v1.0.0".toList
      "// indirect".toList ' ' (by decide) (by decide) (by decide)).1,
    (findRequires_trailing_text "\t".toList "example.com/a".toList "v1.0.0".toList
      "// indirect".toList ' ' (by decide) (by decide) (by decide)).2.1,
    by decide⟩

/-- C19: for a plan whose identifiers and paths are tokens (non-empty, without `\s`
characters), the pattern `replaceRE` recognises every directive line of the plan and
captures its identifier, and the second run inserts no directive line: the non-empty lines
of the second output are the non-empty lines of the first, in the same order. -/
theorem findNewContent_second_run (c : Str) (p : List replacement)
    (h : ∀ r ∈ p, isToken r.module = true ∧ isToken r.relDir = true) :
    (∀ r ∈ p, replaceRE (replLine r) = some r.module) ∧
      (splitNL (findNewContent (findNewContent c p) p)).filter (fun l => !l.isEmpty) =
        (splitNL (findNewContent c p)).filter (fun l => !l.isEmpty) := by
  have hrec : ∀ r ∈ p, replaceRE (replLine r) = some r.module :=
    fun r hr => replaceRE_replLine r (h r hr).1 (h r hr).2
  refine ⟨hrec, ?_⟩
  by_cases hgo : ∀ l ∈ splitNL c, goVersionRE l = false
  · rw [findNewContent_of_no_goVersion c p hgo, findNewContent_of_no_goVersion c p hgo]
  · have hgo' : ∃ l ∈ splitNL c, goVersionRE l = true := by
      by_contra hcon
      apply hgo
      intro l hl
      cases hgl : goVersionRE l with
      | false => rfl
      | true => exact absurd ⟨l, hl, hgl⟩ hcon
    have hex : ∀ r ∈ p, r.module ∈ existingIds (findNewContent c p) := by
      intro r hr
      rw [existingIds, List.mem_filterMap]
      by_cases hm : r.module ∈ existingIds c
      · obtain ⟨l, hl, hcap⟩ := List.mem_filterMap.mp hm
        exact ⟨l, mem_splitNL_findNewContent c p l hl, hcap⟩
      · have hnew : r ∈ newRepls c p := by
          rw [newRepls, List.mem_filter]
          exact ⟨hr, by simpa using hm⟩
        have hnl : '\n' ∉ replLine r :=
          newline_not_mem_replLine r (newline_not_mem_token _ (h r hr).1)
            (newline_not_mem_token _ (h r hr).2)
        exact ⟨replLine r, mem_splitNL_findNewContent_replLine c p r hnew hnl hgo',
          hrec r hr⟩
    have hnil := newRepls_eq_nil_of_existing (findNewContent c p) p hex
    rw [splitNL_findNewContent_lines (findNewContent c p) p, insertedBlock, hnil]
    exact filter_blank_flatMap _

/-- C19, witness: the manifest `go 1.17` with a requirement of `a` and the plan
`a => ../a`. -/
theorem findNewContent_second_run_witness :
    (∀ r ∈ [(⟨"a".toList, "../a".toList⟩ : replacement)],
        replaceRE (replLine r) = some r.module) ∧
      (splitNL (findNewContent
          (findNewContent "go 1.17\nrequire a v1".toList [⟨"a".toList, "../a".toList⟩])
          [⟨"a".toList, "../a".toList⟩])).filter (fun l => !l.isEmpty) =
        (splitNL (findNewContent "go 1.17\nrequire a v1".toList
          [⟨"a".toList, "../a".toList⟩])).filter (fun l => !l.isEmpty) :=
  findNewContent_second_run _ _ (by decide)

/-- C20: for a listed directory of parent steps whose entries have plain names,
`searchDir` appends the records of the entries in listing order, up to the first child
directory whose manifest exists and cannot be read: a child directory holding a manifest
contributes one record, made of the capture of the first line of the manifest that matches
`module <identifier>` and of the path `<ancestor>/<child>`, when the manifest has such a
line, and no record otherwise; an entry without a manifest and an entry that is not a
directory contribute none. -/
theorem searchDir_records (fs : FS) (k : Nat) (s : Scan) (files : List FileInfo)
    (hdir : fs.ReadDir (parentSteps (k + 1)) = .ok files)
    (hnames : ∀ f ∈ files, isPlainName f.Name = true) :
    (searchDir fs (parentSteps (k + 1)) s).1.goModules =
      s.goModules ++
        (files.takeWhile (fun f =>
          !(f.IsDir && fs.FileExists (parentSteps (k + 1) ++ '/' :: f.Name ++ "/go.mod".toList) &&
            !(fs.ReadFile (parentSteps (k + 1) ++ '/' :: f.Name ++ "/go.mod".toList)).isOk))).flatMap
          (fun f =>
            if f.IsDir &&
                fs.FileExists (parentSteps (k + 1) ++ '/' :: f.Name ++ "/go.mod".toList) then
              match fs.ReadFile (parentSteps (k + 1) ++ '/' :: f.Name ++ "/go.mod".toList) with
              | .ok b =>
                match (splitNL b).findSome? moduleRE with
                | some identifier => [⟨identifier, parentSteps (k + 1) ++ '/' :: f.Name⟩]
                | none => []
              | .error _ => []
            else []) := by
  unfold searchDir
  rw [hdir]
  exact searchFiles_fst fs _ files s.goModules
    (fun f hf => pathJoin_child k f.Name (hnames f hf))

/-- C20, witness: the directory `..` of `siblingFS` holds the module directory `a` and a
plain file. -/
theorem searchDir_records_witness :
    (searchDir siblingFS (parentSteps 1) ⟨[], []⟩).1.goModules =
      [⟨"github.com/example/a".toList, "../a".toList⟩] :=
  (searchDir_records siblingFS 0 ⟨[], []⟩
    [⟨"a".toList, true⟩, ⟨"notes.txt".toList, false⟩] (by decide) (by decide)).trans
      (by decide)

end UseLocalGoModules
